import Mathlib

/-!
Verification development for the `wordsearch_generator` placement engine
(`src/main.rs`).  The Rust engine is shallowly embedded below:

* machine integers (`usize`) become `Nat`; the few places where the Rust
  code can panic (out-of-range `Vec` indexing, `usize` underflow with
  overflow checks, empty `gen_range` ranges) are modelled by `Option`-valued
  variants (`none` = panic) of the corresponding functions, while the main
  pipeline uses total variants that agree with the partial ones on the
  domain where the Rust code is panic-free;
* `f64` score arithmetic is idealised as exact arithmetic: the purely
  rational score formulas become `ℚ`, and the single irrational ingredient
  (the euclidean distance in `calculate_placement_score`) is kept symbolic
  in a `PScore` pair whose exact comparison is implemented over `Int`
  and proven equivalent to the real-number comparison;
* randomness (`rand::thread_rng`) is an oracle: every random draw is taken
  from an explicit list of naturals threaded through the functions, and
  the Metropolis coin `gen::<f64>() < exp(delta/temperature)` is drawn as
  a boolean from the same oracle;
* `sort_by`, which in Rust is a stable sort, is embedded as a stable
  insertion sort driven by the same comparator.

Words are lists of characters (the engine only sees uppercase ASCII words,
for which Rust's byte length and character count coincide).
-/

namespace Wordsearch

/-- Direction of a placed word, as in `main.rs` (`Direction`). -/
inductive Direction where
  | horizontal
  | vertical
deriving DecidableEq, Repr

/-- The grid of `main.rs`: a row-major matrix of optional characters plus
its declared dimensions.  `cells` is `none` at empty positions. -/
structure Grid where
  cells : List (List (Option Char))
  width : Nat
  height : Nat
deriving DecidableEq, Repr

/-- A placed word, as in `main.rs` (`PlacedWord`): `start_row`/`start_col`
is the top-left corner of the occupied span. -/
structure PlacedWord where
  word : List Char
  start_row : Nat
  start_col : Nat
  direction : Direction
deriving DecidableEq, Repr

instance : Inhabited PlacedWord := ⟨⟨[], 0, 0, .horizontal⟩⟩

/-- An intersection candidate, as in `main.rs` (`Intersection`). -/
structure Intersection where
  h_word_idx : Nat
  v_word_idx : Nat
  h_char_idx : Nat
  v_char_idx : Nat
  character : Char
deriving DecidableEq, Repr

/-- `Grid::new`: all cells empty. -/
def Grid.new (width height : Nat) : Grid :=
  ⟨List.replicate height (List.replicate width none), width, height⟩

/-- Well-formedness: the cell matrix matches the declared dimensions.
Every grid manipulated by the engine satisfies this. -/
def Grid.wf (g : Grid) : Prop :=
  g.cells.length = g.height ∧ ∀ row ∈ g.cells, row.length = g.width

instance : DecidablePred Grid.wf := fun g => by
  unfold Grid.wf; infer_instance

/-- Total cell read; out-of-range reads give `none` (treated as an empty
cell).  The pipeline only reads in range on well-formed grids, where this
agrees with `Grid.cellP`. -/
def Grid.cell (g : Grid) (r c : Nat) : Option Char :=
  (g.cells.getD r []).getD c none

/-- Cell read modelling the Rust indexing `self.cells[r][c]`: the outer
`none` means the access panics. -/
def Grid.cellP (g : Grid) (r c : Nat) : Option (Option Char) :=
  match g.cells[r]? with
  | none => none
  | some row => row[c]?

/-- Write one cell (total; out-of-range writes are dropped, which the
engine never does on well-formed grids). -/
def setCell (g : Grid) (r c : Nat) (v : Option Char) : Grid :=
  { g with cells := g.cells.set r ((g.cells.getD r []).set c v) }

/-- The horizontal scanning loop of `can_place_word`, with panics: checks
the characters of `w` against row `row` starting at column `c`.
Returns `none` if some access `cells[row][c+i]` is out of range. -/
def checkCellsHP (g : Grid) (row : Nat) : Nat → List Char → Option Bool
  | _, [] => some true
  | c, ch :: rest =>
    match g.cellP row c with
    | none => none
    | some none => checkCellsHP g row (c + 1) rest
    | some (some existing) =>
      if existing = ch then checkCellsHP g row (c + 1) rest else some false

/-- The vertical scanning loop of `can_place_word`, with panics. -/
def checkCellsVP (g : Grid) (col : Nat) : Nat → List Char → Option Bool
  | _, [] => some true
  | r, ch :: rest =>
    match g.cellP r col with
    | none => none
    | some none => checkCellsVP g col (r + 1) rest
    | some (some existing) =>
      if existing = ch then checkCellsVP g col (r + 1) rest else some false

/-- `Grid::can_place_word`, faithful to the Rust indexing: `none` models a
panic (the Rust code indexes `self.cells[row][c]` without bounds checks,
so the scan panics at its first out-of-range read; an in-bounds
conflicting cell earlier in the span still returns `false`, and an empty
word reads nothing). -/
def can_place_wordP (g : Grid) (w : List Char) (row col : Nat) :
    Direction → Option Bool
  | .horizontal =>
    if col + 1 < w.length then some false
    else checkCellsHP g row (col + 1 - w.length) w
  | .vertical =>
    if row + 1 < w.length then some false
    else checkCellsVP g col (row + 1 - w.length) w

/-- Total horizontal scanning loop (out-of-range reads as empty cells). -/
def checkCellsH (g : Grid) (row : Nat) : Nat → List Char → Bool
  | _, [] => true
  | c, ch :: rest =>
    match g.cell row c with
    | none => checkCellsH g row (c + 1) rest
    | some existing =>
      if existing = ch then checkCellsH g row (c + 1) rest else false

/-- Total vertical scanning loop. -/
def checkCellsV (g : Grid) (col : Nat) : Nat → List Char → Bool
  | _, [] => true
  | r, ch :: rest =>
    match g.cell r col with
    | none => checkCellsV g col (r + 1) rest
    | some existing =>
      if existing = ch then checkCellsV g col (r + 1) rest else false

/-- Total version of `Grid::can_place_word`; it agrees with
`can_place_wordP` whenever the latter does not panic. -/
def can_place_word (g : Grid) (w : List Char) (row col : Nat) :
    Direction → Bool
  | .horizontal =>
    if col + 1 < w.length then false
    else checkCellsH g row (col + 1 - w.length) w
  | .vertical =>
    if row + 1 < w.length then false
    else checkCellsV g col (row + 1 - w.length) w

/-- Write the characters of `w` into row `row` starting at column `c`. -/
def writeH (g : Grid) (row : Nat) : Nat → List Char → Grid
  | _, [] => g
  | c, ch :: rest => writeH (setCell g row c (some ch)) row (c + 1) rest

/-- Write the characters of `w` into column `col` starting at row `r`. -/
def writeV (g : Grid) (col : Nat) : Nat → List Char → Grid
  | _, [] => g
  | r, ch :: rest => writeV (setCell g r col (some ch)) col (r + 1) rest

/-- `Grid::place_word`: re-validates via `can_place_word`, then writes all
characters; returns whether it succeeded together with the new grid. -/
def place_word (g : Grid) (w : List Char) (row col : Nat) (d : Direction) :
    Bool × Grid :=
  if can_place_word g w row col d then
    match d with
    | .horizontal => (true, writeH g row (col + 1 - w.length) w)
    | .vertical => (true, writeV g col (row + 1 - w.length) w)
  else (false, g)

/-- Accumulator of the scan in `Grid::calculate_used_area`. -/
structure AreaAcc where
  min_row : Nat
  max_row : Nat
  min_col : Nat
  max_col : Nat
  has_content : Bool
deriving DecidableEq, Repr

/-- One step of the `calculate_used_area` scan. -/
def areaStep (r c : Nat) (cell : Option Char) (a : AreaAcc) : AreaAcc :=
  match cell with
  | none => a
  | some _ =>
    ⟨min a.min_row r, max a.max_row r, min a.min_col c, max a.max_col c, true⟩

/-- `Grid::calculate_used_area`: bounding box of the non-empty cells, or
`(0, 0, 0, 0)` when the grid is empty. -/
def calculate_used_area (g : Grid) : Nat × Nat × Nat × Nat :=
  let acc := g.cells.enum.foldl
    (fun a rc => rc.2.enum.foldl (fun a' cc => areaStep rc.1 cc.1 cc.2 a') a)
    ⟨g.height, 0, g.width, 0, false⟩
  if acc.has_content then (acc.min_row, acc.max_row, acc.min_col, acc.max_col)
  else (0, 0, 0, 0)

/-- `Grid::get_used_dimensions`: `(used height, used width)`. -/
def get_used_dimensions (g : Grid) : Nat × Nat :=
  let a := calculate_used_area g
  (a.2.1 - a.1 + 1, a.2.2.2 - a.2.2.1 + 1)

/-- `Grid::compact`: reallocate the grid to its used bounding box; returns
the `(row, col)` offset that callers subtract from word anchors. -/
def compact (g : Grid) : (Nat × Nat) × Grid :=
  let a := calculate_used_area g
  let min_row := a.1
  let max_row := a.2.1
  let min_col := a.2.2.1
  let max_col := a.2.2.2
  let new_height := max_row - min_row + 1
  let new_width := max_col - min_col + 1
  let new_cells := (List.range new_height).map fun r =>
    (List.range new_width).map fun c => g.cell (min_row + r) (min_col + c)
  ((min_row, min_col), ⟨new_cells, new_width, new_height⟩)

/-- Row emptiness test of `try_remove_empty_rows_cols`
(`(0..width).all(|c| cells[row][c].is_none())`). -/
def rowIsEmpty (width : Nat) (row : List (Option Char)) : Bool :=
  (List.range width).all fun c => (row.getD c none).isNone

/-- The row-removal loop of `try_remove_empty_rows_cols`: delete every
fully-empty row, keeping the order of the rest. -/
def removeEmptyRows (width : Nat) : List (List (Option Char)) →
    List (List (Option Char))
  | [] => []
  | row :: rest =>
    if rowIsEmpty width row then removeEmptyRows width rest
    else row :: removeEmptyRows width rest

/-- Column emptiness test of `try_remove_empty_rows_cols`
(`(0..height).all(|r| cells[r][col].is_none())`). -/
def colIsEmpty (cells : List (List (Option Char))) (c : Nat) : Bool :=
  cells.all fun row => (row.getD c none).isNone

/-- Keep only the entries of `row` at positions satisfying `keep`; this is
the cumulative effect of the column-removal loop. -/
def filterCols (keep : Nat → Bool) (row : List (Option Char)) :
    List (Option Char) :=
  (row.enum.filter fun ic => keep ic.1).map fun ic => ic.2

/-- `Grid::try_remove_empty_rows_cols`: first remove every empty row, then
every column that is empty in the row-stripped grid (the Rust `while`
loops with in-place `remove` have exactly this cumulative effect, since
deleting one empty line never changes the emptiness of another).
Returns whether anything was removed, together with the new grid. -/
def try_remove_empty_rows_cols (g : Grid) : Bool × Grid :=
  let rows1 := removeEmptyRows g.width g.cells
  let changedR : Bool := decide (rows1.length ≠ g.cells.length)
  let keep : Nat → Bool := fun c => ! colIsEmpty rows1 c
  let changedC : Bool := decide
    (((List.range g.width).filter fun c => colIsEmpty rows1 c) ≠ [])
  let rows2 := rows1.map (filterCols keep)
  let new_width := ((List.range g.width).filter keep).length
  (changedR || changedC, ⟨rows2, new_width, rows1.length⟩)

/-- The `while grid.try_remove_empty_rows_cols() {}` loop of `generate`,
with enough fuel to reach the fixed point (on well-formed grids each
productive pass strictly shrinks `height + width`, so this fuel always
suffices). -/
def trimAllFuel : Nat → Grid → Grid
  | 0, g => g
  | fuel + 1, g =>
    let p := try_remove_empty_rows_cols g
    if p.1 then trimAllFuel fuel p.2 else p.2

/-- Trim empty rows and columns until nothing changes. -/
def trimAll (g : Grid) : Grid := trimAllFuel (g.height + g.width + 1) g

/-- Insert `x` into `l`, placing it before the first element it strictly
beats under `gt`.  With `l` sorted descending this keeps `l` sorted and
puts `x` after every earlier element of equal rank. -/
def insertByGt (gt : α → α → Bool) (x : α) : List α → List α
  | [] => [x]
  | y :: ys => if gt x y then x :: y :: ys else y :: insertByGt gt x ys

/-- Stable insertion sort: the embedding of Rust's stable `sort_by` for a
comparator that orders by `gt` (strictly-greater-first) and reports ties
as equal.  Elements of equal rank keep their input order. -/
def stableSortByGt (gt : α → α → Bool) (l : List α) : List α :=
  l.foldl (fun acc x => insertByGt gt x acc) []

/-- The comparator of `WordSearchGenerator::new`
(`b.len().cmp(&a.len())`): longer words first. -/
def lenGt (a b : List Char) : Bool := decide (b.length < a.length)

/-- The engine's input, as in `main.rs` (`WordLists`). -/
structure WordLists where
  horizontal : List (List Char)
  vertical : List (List Char)
deriving DecidableEq, Repr

/-- The engine state, as in `main.rs` (`WordSearchGenerator`), without the
purely observational `silent` flag. -/
structure Gen where
  horizontal_words : List (List Char)
  vertical_words : List (List Char)
deriving DecidableEq, Repr

/-- `WordSearchGenerator::new`: sort both word lists by length,
descending, with Rust's stable `sort_by`. -/
def mkGen (wl : WordLists) : Gen :=
  ⟨stableSortByGt lenGt wl.horizontal, stableSortByGt lenGt wl.vertical⟩

/-- The enumeration loop of `find_all_intersections`: one `Intersection`
per matching (h word, v word, h char, v char) quadruple, in loop order. -/
def enumIntersections (gen : Gen) : List Intersection :=
  gen.horizontal_words.enum.flatMap fun hi =>
    gen.vertical_words.enum.flatMap fun vi =>
      hi.2.enum.flatMap fun hc =>
        vi.2.enum.filterMap fun vc =>
          if hc.2 = vc.2 then some ⟨hi.1, vi.1, hc.1, vc.1, hc.2⟩ else none

/-- `count_letter_frequency`: occurrences of `letter` across all words. -/
def count_letter_frequency (gen : Gen) (letter : Char) : Nat :=
  (gen.horizontal_words.map fun w => (w.filter fun c => c = letter).length).sum
    + (gen.vertical_words.map fun w => (w.filter fun c => c = letter).length).sum

/-- `score_intersection_potential`.  Every quantity here is a multiple of
1/2 well inside the exactly-representable range of `f64`, so the Rust
`f64` arithmetic is exact and `ℚ` models it faithfully. -/
def score_intersection_potential (gen : Gen) (it : Intersection) : ℚ :=
  let h_word_len : ℚ := (gen.horizontal_words.getD it.h_word_idx []).length
  let v_word_len : ℚ := (gen.vertical_words.getD it.v_word_idx []).length
  let score : ℚ := (h_word_len + v_word_len) * 2
  let h_center_distance : ℚ := |(it.h_char_idx : ℚ) - h_word_len / 2|
  let v_center_distance : ℚ := |(it.v_char_idx : ℚ) - v_word_len / 2|
  let score := score + (20 - (h_center_distance + v_center_distance))
  score + (count_letter_frequency gen it.character : ℚ) * 5

/-- Twice `score_intersection_potential`, as an integer (kept in `Int`
so that the sorting comparator computes by kernel reduction; the bridge
is `interScore2_eq`). -/
def interScore2 (gen : Gen) (it : Intersection) : Int :=
  let h : Int := (gen.horizontal_words.getD it.h_word_idx []).length
  let v : Int := (gen.vertical_words.getD it.v_word_idx []).length
  (h + v) * 4 + 40 - (|2 * it.h_char_idx - h| + |2 * it.v_char_idx - v|)
    + (count_letter_frequency gen it.character : Int) * 10

/-- The comparator used to sort intersections (descending by score;
comparing twice the scores is the same as comparing the scores). -/
def interGt (gen : Gen) (a b : Intersection) : Bool :=
  decide (interScore2 gen b < interScore2 gen a)

/-- `find_all_intersections`: enumerate all matching quadruples, then sort
by potential, descending, stably. -/
def find_all_intersections (gen : Gen) : List Intersection :=
  stableSortByGt (interGt gen) (enumIntersections gen)

/-- Squared distance between the naturals `a` and `b`. -/
def natDistSq (a b : Nat) : Nat := (max a b - min a b) ^ 2

/-- Four times the squared euclidean distance from the anchor `(row, col)`
to the grid center `(height/2, width/2)`: `(2·row − height)² + (2·col −
width)²`.  Keeping the factor 4 keeps the value a natural number. -/
def d4Of (g : Grid) (row col : Nat) : Nat :=
  natDistSq (2 * row) g.height + natDistSq (2 * col) g.width

/-- The placement score of `calculate_placement_score`, kept symbolic:
its real value is `base − sqrt d4 / 2` (see `PScore.val`), where `base`
collects the rational contributions and `d4Of` the euclidean one. -/
structure PScore where
  base : Nat
  d4 : Nat
deriving DecidableEq, Repr

/-- The real value of a symbolic placement score. -/
noncomputable def PScore.val (s : PScore) : ℝ :=
  (s.base : ℝ) - Real.sqrt s.d4 / 2

/-- Decide `Real.sqrt x < p + Real.sqrt y` by integer arithmetic. -/
def sqrtLtB (x : Nat) (p : Int) (y : Nat) : Bool :=
  if 0 ≤ p then
    decide ((x : Int) - p ^ 2 - y < 0) ||
      decide (((x : Int) - p ^ 2 - y) ^ 2 < 4 * p ^ 2 * y)
  else
    decide (0 < (y : Int) - x - p ^ 2) &&
      decide (4 * p ^ 2 * x < ((y : Int) - x - p ^ 2) ^ 2)

/-- Decide `a.val < b.val`.  This is the exact comparison of the two real
scores; the Rust code compares the same quantities as `f64`s. -/
def pscoreLt (a b : PScore) : Bool :=
  sqrtLtB b.d4 (2 * ((b.base : Int) - (a.base : Int))) a.d4

/-- Count, along the horizontal span, the occupied cells that hold the
matching character (the `intersection_count` loop of
`calculate_placement_score`). -/
def matchCountH (g : Grid) (row : Nat) : Nat → List Char → Nat
  | _, [] => 0
  | c, ch :: rest =>
    match g.cell row c with
    | none => matchCountH g row (c + 1) rest
    | some existing =>
      (if existing = ch then 1 else 0) + matchCountH g row (c + 1) rest

/-- Count matching occupied cells along the vertical span. -/
def matchCountV (g : Grid) (col : Nat) : Nat → List Char → Nat
  | _, [] => 0
  | r, ch :: rest =>
    match g.cell r col with
    | none => matchCountV g col (r + 1) rest
    | some existing =>
      (if existing = ch then 1 else 0) + matchCountV g col (r + 1) rest

/-- `calculate_placement_score`: `100 − dist(anchor, center)`, plus `50`
per matching occupied cell (accumulated in the loop), plus `2·len`, plus
`25·intersection_count`.  The rational part is collected in `base`; the
`_intersections` argument of the Rust function is unused there too. -/
def calculate_placement_score (g : Grid) (w : List Char) (row col : Nat) :
    Direction → PScore
  | .horizontal =>
    let m := matchCountH g row (col + 1 - w.length) w
    ⟨100 + 50 * m + 2 * w.length + 25 * m, d4Of g row col⟩
  | .vertical =>
    let m := matchCountV g col (row + 1 - w.length) w
    ⟨100 + 50 * m + 2 * w.length + 25 * m, d4Of g row col⟩

/-- A scored placement proposal, as in `main.rs` (`PlacementCandidate`). -/
structure PlacementCandidate where
  word_idx : Nat
  direction : Direction
  row : Nat
  col : Nat
  score : PScore
  intersections : List Nat
deriving DecidableEq, Repr

/-- Comparator on candidates (descending by score). -/
def candGt (a b : PlacementCandidate) : Bool := pscoreLt b.score a.score

/-- The raw enumeration of `generate_candidates`: every anchor in the loop
ranges (`row ∈ 0..height`, `col ∈ (len−1)..width` for horizontal, and
symmetrically for vertical) where `can_place_word` succeeds. -/
def candEnum (g : Grid) (w : List Char) : Direction → List PlacementCandidate
  | .horizontal =>
    (List.range g.height).flatMap fun row =>
      ((List.range g.width).drop (w.length - 1)).filterMap fun col =>
        if can_place_word g w row col .horizontal then
          some ⟨0, .horizontal, row, col,
            calculate_placement_score g w row col .horizontal, []⟩
        else none
  | .vertical =>
    ((List.range g.height).drop (w.length - 1)).flatMap fun row =>
      (List.range g.width).filterMap fun col =>
        if can_place_word g w row col .vertical then
          some ⟨0, .vertical, row, col,
            calculate_placement_score g w row col .vertical, []⟩
        else none

/-- `generate_candidates` (total version, used by the pipeline, faithful
for non-empty words): enumerate, sort descending by score, keep the top
50. -/
def generate_candidates (g : Grid) (w : List Char) (d : Direction) :
    List PlacementCandidate :=
  (stableSortByGt candGt (candEnum g w d)).take 50

/-- Monadic accumulation of the candidate loop with panics. -/
def candColAuxP (g : Grid) (w : List Char) (d : Direction) (row : Nat) :
    List Nat → Option (List PlacementCandidate)
  | [] => some []
  | col :: rest =>
    match can_place_wordP g w row col d with
    | none => none
    | some true => do
      let tail ← candColAuxP g w d row rest
      some (⟨0, d, row, col, calculate_placement_score g w row col d, []⟩ :: tail)
    | some false => candColAuxP g w d row rest

/-- Row-major accumulation of the candidate loops with panics. -/
def candEnumAuxP (g : Grid) (w : List Char) (d : Direction) :
    List Nat → List Nat → Option (List PlacementCandidate)
  | [], _ => some []
  | row :: rows, cols => do
    let first ← candColAuxP g w d row cols
    let rest ← candEnumAuxP g w d rows cols
    some (first ++ rest)

/-- `generate_candidates` with panics modelled: `none` when the `usize`
subtraction `word.len() - 1` underflows (zero-length word; an
overflow-checked build panics right there) or when some `can_place_word`
call indexes out of range.  (`calculate_placement_score` reads the same
cells as the `can_place_word` call guarding it, so it adds no panic.) -/
def generate_candidatesP (g : Grid) (w : List Char) (d : Direction) :
    Option (List PlacementCandidate) :=
  match w.length with
  | 0 => none
  | _ + 1 =>
    let raw? :=
      match d with
      | .horizontal =>
        candEnumAuxP g w .horizontal (List.range g.height)
          ((List.range g.width).drop (w.length - 1))
      | .vertical =>
        candEnumAuxP g w .vertical ((List.range g.height).drop (w.length - 1))
          (List.range g.width)
    match raw? with
    | none => none
    | some raw => some ((stableSortByGt candGt raw).take 50)

/-- The random oracle: a queue of natural numbers standing for the draws
of `rand::thread_rng()`.  An exhausted queue keeps answering 0. -/
abbrev R := List Nat

/-- Take one draw from the oracle. -/
def rdraw (r : R) : Nat × R := (r.headD 0, r.tail)

/-- `rng.gen_range(lo..hi)` for a non-empty range: the oracle draw is
reduced into the range.  (For `hi ≤ lo` the Rust call panics; the claims
about that case use `gen_range_emptyP` below.) -/
def gen_range (lo hi : Nat) (r : R) : Nat × R :=
  let p := rdraw r
  (lo + p.1 % (hi - lo), p.2)

/-- Whether a `gen_range(lo..hi)` call panics: Rust's `gen_range` panics
exactly on empty ranges. -/
def gen_range_emptyP (lo hi : Nat) : Bool := decide (hi ≤ lo)

/-- The Metropolis coin `rng.gen::<f64>() < (delta/temperature).exp()`,
drawn from the oracle as a boolean (the `exp` comparison itself is not
computable; quantifying over the oracle covers both outcomes). -/
def gen_coin (r : R) : Bool × R :=
  let p := rdraw r
  (decide (p.1 ≠ 0), p.2)

/-- Swap two positions of a list (no-op when either is out of range). -/
def listSwap (l : List α) (i j : Nat) : List α :=
  match l[i]?, l[j]? with
  | some a, some b => (l.set i b).set j a
  | _, _ => l

/-- The Fisher–Yates loop of `SliceRandom::shuffle`: for `i` from
`len−1` down to `1`, swap position `i` with a drawn position `≤ i`. -/
def fyAux : Nat → List α → R → List α × R
  | 0, l, r => (l, r)
  | i + 1, l, r =>
    let p := rdraw r
    fyAux i (listSwap l (i + 1) (p.1 % (i + 2))) p.2

/-- `shuffle(&mut rng)` on a list, driven by the oracle. -/
def shuffle (l : List α) (r : R) : List α × R := fyAux (l.length - 1) l r

/-- A complete working solution: the grid plus the placed-word list. -/
structure Sol where
  grid : Grid
  words : List PlacedWord
deriving DecidableEq, Repr

/-- An unreduced fraction.  The engine's `f64` attempt/solution scores are
exact rationals; representing them as unreduced fractions (denominators
positive by construction) lets every comparison compute by kernel
reduction via cross multiplication. -/
structure Frac where
  num : Int
  den : Int
deriving DecidableEq, Repr

/-- The rational value of a fraction. -/
def Frac.val (a : Frac) : ℚ := (a.num : ℚ) / (a.den : ℚ)

/-- Strict comparison by cross multiplication (correct when both
denominators are positive, which holds for every score built below). -/
def Frac.lt (a b : Frac) : Bool := decide (a.num * b.den < b.num * a.den)

/-- `count_intersections`: for each of the word's occupied cells, count 1
if some other cell of the crossing line (same column for a horizontal
word, same row for a vertical one) is occupied. -/
def count_intersections (g : Grid) (pw : PlacedWord) : Nat :=
  match pw.direction with
  | .horizontal =>
    ((List.range pw.word.length).map fun i =>
      let col := pw.start_col + i
      if (g.cell pw.start_row col).isSome &&
          ((List.range g.height).any fun r =>
            decide (r ≠ pw.start_row) && (g.cell r col).isSome) then 1 else 0).sum
  | .vertical =>
    ((List.range pw.word.length).map fun i =>
      let row := pw.start_row + i
      if (g.cell row pw.start_col).isSome &&
          ((List.range g.width).any fun c =>
            decide (c ≠ pw.start_col) && (g.cell row c).isSome) then 1 else 0).sum

/-- `count_total_intersections`. -/
def count_total_intersections (g : Grid) (pws : List PlacedWord) : Nat :=
  (pws.map fun pw => count_intersections g pw).sum

/-- `evaluate_solution` as a rational:
`2000/area + 200/(1+|Δdim|) + 25·intersections` (the divisions are
idealised as exact rational arithmetic). -/
def evaluate_solutionQ (g : Grid) (pws : List PlacedWord) : ℚ :=
  let d := get_used_dimensions g
  let area := d.1 * d.2
  let square_diff : ℚ := ((d.1 : Int) - (d.2 : Int)).natAbs
  2000 / (area : ℚ) + 200 / (1 + square_diff)
    + (count_total_intersections g pws : ℚ) * 25

/-- `evaluate_solution`, as an unreduced fraction over the common
denominator `area·(1+|Δdim|)` (positive, since both used dimensions are
at least 1).  Its value is `evaluate_solutionQ` (lemma
`evaluate_solution_val`). -/
def evaluate_solution (g : Grid) (pws : List PlacedWord) : Frac :=
  let d := get_used_dimensions g
  let area : Int := (d.1 * d.2 : Nat)
  let sd1 : Int := 1 + (((d.1 : Int) - (d.2 : Int)).natAbs : Int)
  let ic : Int := count_total_intersections g pws
  ⟨2000 * sd1 + 200 * area + 25 * ic * area * sd1, area * sd1⟩

/-- The per-word random placement loop of `generate_with_size`: up to
`fuel` (150) draws of a random anchor, first successful `place_word`
wins. -/
def placeRandLoop (g : Grid) (w : List Char) (d : Direction)
    (width height : Nat) : Nat → R → Option (Grid × PlacedWord) × R
  | 0, r => (none, r)
  | fuel + 1, r =>
    match d with
    | .horizontal =>
      let p1 := gen_range 0 height r
      let p2 := gen_range (w.length - 1) width p1.2
      let row := p1.1
      let col := p2.1
      let pg := place_word g w row col .horizontal
      if pg.1 then
        (some (pg.2, ⟨w, row, col + 1 - w.length, .horizontal⟩), p2.2)
      else placeRandLoop g w d width height fuel p2.2
    | .vertical =>
      let p1 := gen_range (w.length - 1) height r
      let p2 := gen_range 0 width p1.2
      let row := p1.1
      let col := p2.1
      let pg := place_word g w row col .vertical
      if pg.1 then
        (some (pg.2, ⟨w, row + 1 - w.length, col, .vertical⟩), p2.2)
      else placeRandLoop g w d width height fuel p2.2

/-- Place every word of `ws` by random probing; `none` when some word
exhausts its 150 tries (the whole attempt fails). -/
def placeAllRand (d : Direction) (width height : Nat) :
    List (List Char) → Grid → List PlacedWord → R →
    Option (Grid × List PlacedWord) × R
  | [], g, acc, r => (some (g, acc), r)
  | w :: ws, g, acc, r =>
    match placeRandLoop g w d width height 150 r with
    | (some (g', pw), r') => placeAllRand d width height ws g' (acc ++ [pw]) r'
    | (none, r') => (none, r')

/-- One attempt of `generate_with_size`: shuffle both lists, place all
horizontal then all vertical words randomly. -/
def withSizeAttempt (gen : Gen) (width height : Nat) (r : R) :
    Option Sol × R :=
  let sh := shuffle gen.horizontal_words r
  let sv := shuffle gen.vertical_words sh.2
  match placeAllRand .horizontal width height sh.1 (Grid.new width height) [] sv.2 with
  | (none, r') => (none, r')
  | (some (g1, pws1), r') =>
    match placeAllRand .vertical width height sv.1 g1 pws1 r' with
    | (none, r'') => (none, r'')
    | (some (g2, pws2), r'') => (some ⟨g2, pws2⟩, r'')

/-- The attempt loop of `generate_with_size` with its best tracking by the
integer score `area·10 + |Δdim|·3` (lower is better; the initial best is
`usize::MAX`). -/
def withSizeLoop (gen : Gen) (width height : Nat) :
    Nat → Option Sol → Nat → R → Option Sol × R
  | 0, best, _, r => (best, r)
  | n + 1, best, bestArea, r =>
    match withSizeAttempt gen width height r with
    | (none, r') => withSizeLoop gen width height n best bestArea r'
    | (some s, r') =>
      let d := get_used_dimensions s.grid
      let area := d.1 * d.2
      let square_diff := ((d.1 : Int) - (d.2 : Int)).natAbs
      let score := area * 10 + square_diff * 3
      if score < bestArea then
        withSizeLoop gen width height n (some s) score r'
      else withSizeLoop gen width height n best bestArea r'

/-- `generate_with_size`: size-probing randomized placement. -/
def generate_with_size (gen : Gen) (width height max_attempts : Nat)
    (r : R) : Option Sol × R :=
  withSizeLoop gen width height max_attempts none (2 ^ 64 - 1) r

/-- Build the `PlacedWord` recorded for a successful candidate placement
(the anchor arithmetic used in `generate_optimized` and
`try_optimize_single_word`). -/
def placedOfCand (w : List Char) (c : PlacementCandidate) : PlacedWord :=
  ⟨w,
    match c.direction with
    | .horizontal => c.row
    | .vertical => c.row + 1 - w.length,
    match c.direction with
    | .horizontal => c.col + 1 - w.length
    | .vertical => c.col,
    c.direction⟩

/-- First-fit placement over a candidate list (the
`for candidate in candidates.iter().take(5)` loops). -/
def firstFitPlace (g : Grid) (w : List Char) :
    List PlacementCandidate → Option (Grid × PlacedWord)
  | [] => none
  | c :: cs =>
    let pg := place_word g w c.row c.col c.direction
    if pg.1 then some (pg.2, placedOfCand w c) else firstFitPlace g w cs

/-- The candidate-try loop of `generate_optimized`: for `i` in
`0..try_count`, try candidate `i` when `i < 3` and a randomly drawn
candidate index otherwise; first successful placement wins. -/
def tryCandLoop (g : Grid) (w : List Char) (cands : List PlacementCandidate) :
    Nat → Nat → R → Option (Grid × PlacedWord) × R
  | _, 0, r => (none, r)
  | i, fuel + 1, r =>
    let pr : Nat × R := if i < 3 then (i, r) else gen_range 0 cands.length r
    match cands[pr.1]? with
    | none => tryCandLoop g w cands (i + 1) fuel pr.2
    | some c =>
      let pg := place_word g w c.row c.col c.direction
      if pg.1 then (some (pg.2, placedOfCand w c), pr.2)
      else tryCandLoop g w cands (i + 1) fuel pr.2

/-- The queue construction of `generate_optimized`: alternate the two
(shuffled) index lists, one of each per loop turn, appending the leftover
of the longer list. -/
def interleaveQueue : List Nat → List Nat → List (Nat × Direction)
  | [], vs => vs.map fun v => (v, .vertical)
  | h :: hs, [] => (h, .horizontal) :: interleaveQueue hs []
  | h :: hs, v :: vs =>
    (h, .horizontal) :: (v, .vertical) :: interleaveQueue hs vs

/-- Process the placement queue of `generate_optimized`: each queued word
is placed through `tryCandLoop`; a word with no placement aborts the
attempt. -/
def processQueue (gen : Gen) :
    List (Nat × Direction) → Grid → List PlacedWord → R →
    Option (Grid × List PlacedWord) × R
  | [], g, acc, r => (some (g, acc), r)
  | (idx, d) :: rest, g, acc, r =>
    let w := match d with
      | .horizontal => gen.horizontal_words.getD idx []
      | .vertical => gen.vertical_words.getD idx []
    let cands := generate_candidates g w d
    let try_count := max (min cands.length 10) 1
    match tryCandLoop g w cands 0 try_count r with
    | (some (g', pw), r') => processQueue gen rest g' (acc ++ [pw]) r'
    | (none, r') => (none, r')

/-- One attempt of `generate_optimized`. -/
def optimizedAttempt (gen : Gen) (width height : Nat) (r : R) :
    Option Sol × R :=
  let sh := shuffle (List.range gen.horizontal_words.length) r
  let sv := shuffle (List.range gen.vertical_words.length) sh.2
  let queue := interleaveQueue sh.1 sv.1
  match processQueue gen queue (Grid.new width height) [] sv.2 with
  | (none, r') => (none, r')
  | (some (g, pws), r') => (some ⟨g, pws⟩, r')

/-- The attempt score of `generate_optimized`:
`1000/area + 100/(1+|Δdim|) + 10·intersections` (as an unreduced
fraction over `area·(1+|Δdim|)`). -/
def optimizedScore (s : Sol) : Frac :=
  let d := get_used_dimensions s.grid
  let area : Int := (d.1 * d.2 : Nat)
  let sd1 : Int := 1 + (((d.1 : Int) - (d.2 : Int)).natAbs : Int)
  let ic : Int := count_total_intersections s.grid s.words
  ⟨1000 * sd1 + 100 * area + 10 * ic * area * sd1, area * sd1⟩

/-- The attempt loop of `generate_optimized` (best starts at score
`f64::NEG_INFINITY`, so the first success always becomes the best). -/
def optimizedLoop (gen : Gen) (width height : Nat) :
    Nat → Option (Sol × Frac) → R → Option Sol × R
  | 0, best, r => (best.map fun b => b.1, r)
  | n + 1, best, r =>
    match optimizedAttempt gen width height r with
    | (none, r') => optimizedLoop gen width height n best r'
    | (some s, r') =>
      let sc := optimizedScore s
      match best with
      | none => optimizedLoop gen width height n (some (s, sc)) r'
      | some b =>
        if Frac.lt b.2 sc then optimizedLoop gen width height n (some (s, sc)) r'
        else optimizedLoop gen width height n best r'

/-- `generate_optimized`: order-randomized greedy placement from scored
candidates. -/
def generate_optimized (gen : Gen) (width height max_attempts : Nat)
    (r : R) : Option Sol × R :=
  optimizedLoop gen width height max_attempts none r

/-- State of phase 1 of `generate_intersection_first`. -/
structure P1State where
  grid : Grid
  pws : List PlacedWord
  usedH : List Bool
  usedV : List Bool
  forced : Nat
deriving DecidableEq, Repr

/-- Phase 1 of `generate_intersection_first`: try to force each of the
first three shuffled intersections at the grid center.  Note the source
ignores the return value of the second `place_word`, so the vertical word
is recorded even when its grid write failed. -/
def phase1 (gen : Gen) (width height : Nat) :
    List Intersection → P1State → P1State
  | [], st => st
  | it :: rest, st =>
    if st.usedH.getD it.h_word_idx false || st.usedV.getD it.v_word_idx false then
      phase1 gen width height rest st
    else
      let h_word := gen.horizontal_words.getD it.h_word_idx []
      let v_word := gen.vertical_words.getD it.v_word_idx []
      let center_row := height / 2
      let center_col := width / 2
      let h_row := center_row
      let h_col := center_col + it.h_char_idx
      let v_row := center_row + it.v_char_idx
      let v_col := center_col
      if h_col < width && v_row < height &&
          can_place_word st.grid h_word h_row h_col .horizontal &&
          can_place_word st.grid v_word v_row v_col .vertical then
        let g1 := (place_word st.grid h_word h_row h_col .horizontal).2
        let g2 := (place_word g1 v_word v_row v_col .vertical).2
        phase1 gen width height rest
          ⟨g2,
            st.pws ++ [⟨h_word, h_row, h_col + 1 - h_word.length, .horizontal⟩,
              ⟨v_word, v_row + 1 - v_word.length, v_col, .vertical⟩],
            st.usedH.set it.h_word_idx true,
            st.usedV.set it.v_word_idx true,
            st.forced + 1⟩
      else phase1 gen width height rest st

/-- Phase 2 of `generate_intersection_first`: place each still-unused word
at the first of its top-5 candidates that fits. -/
def phase2 (d : Direction) : List (List Char × Bool) → Grid →
    List PlacedWord → Option (Grid × List PlacedWord)
  | [], g, acc => some (g, acc)
  | (w, used) :: rest, g, acc =>
    if used then phase2 d rest g acc
    else
      let cands := generate_candidates g w d
      match firstFitPlace g w (cands.take 5) with
      | some (g', pw) => phase2 d rest g' (acc ++ [pw])
      | none => none

/-- One attempt of `generate_intersection_first`; also returns the number
of forced intersections (used by the attempt score). -/
def intersectionFirstAttempt (gen : Gen) (width height : Nat)
    (its : List Intersection) (r : R) : Option (Sol × Nat) × R :=
  let sh := shuffle its r
  let st0 : P1State := ⟨Grid.new width height, [],
    List.replicate gen.horizontal_words.length false,
    List.replicate gen.vertical_words.length false, 0⟩
  let st := phase1 gen width height (sh.1.take 3) st0
  match phase2 .horizontal (gen.horizontal_words.zip st.usedH) st.grid st.pws with
  | none => (none, sh.2)
  | some (g1, pws1) =>
    match phase2 .vertical (gen.vertical_words.zip st.usedV) g1 pws1 with
    | none => (none, sh.2)
    | some (g2, pws2) => (some (⟨g2, pws2⟩, st.forced), sh.2)

/-- The attempt score of `generate_intersection_first`:
`2000/area + 200/(1+|Δdim|) + 25·(forced + intersections)` (as an
unreduced fraction over `area·(1+|Δdim|)`). -/
def intersectionFirstScore (s : Sol) (forced : Nat) : Frac :=
  let d := get_used_dimensions s.grid
  let area : Int := (d.1 * d.2 : Nat)
  let sd1 : Int := 1 + (((d.1 : Int) - (d.2 : Int)).natAbs : Int)
  let ic : Int := (forced + count_total_intersections s.grid s.words : Nat)
  ⟨2000 * sd1 + 200 * area + 25 * ic * area * sd1, area * sd1⟩

/-- The attempt loop of `generate_intersection_first`. -/
def intersectionFirstLoop (gen : Gen) (width height : Nat)
    (its : List Intersection) :
    Nat → Option (Sol × Frac) → R → Option Sol × R
  | 0, best, r => (best.map fun b => b.1, r)
  | n + 1, best, r =>
    match intersectionFirstAttempt gen width height its r with
    | (none, r') => intersectionFirstLoop gen width height its n best r'
    | (some (s, forced), r') =>
      let sc := intersectionFirstScore s forced
      match best with
      | none => intersectionFirstLoop gen width height its n (some (s, sc)) r'
      | some b =>
        if Frac.lt b.2 sc then
          intersectionFirstLoop gen width height its n (some (s, sc)) r'
        else intersectionFirstLoop gen width height its n best r'

/-- `generate_intersection_first`: intersection-seeded placement. -/
def generate_intersection_first (gen : Gen) (width height max_attempts : Nat)
    (r : R) : Option Sol × R :=
  intersectionFirstLoop gen width height (find_all_intersections gen)
    max_attempts none r

/-- `remove_word_from_grid`: blank every cell of the word's span that lies
inside the grid, regardless of other words covering the same cell. -/
def remove_word_from_grid (g : Grid) (pw : PlacedWord) : Grid :=
  match pw.direction with
  | .horizontal =>
    (List.range pw.word.length).foldl
      (fun g' i =>
        let col := pw.start_col + i
        if col < g'.width then setCell g' pw.start_row col none else g') g
  | .vertical =>
    (List.range pw.word.length).foldl
      (fun g' i =>
        let row := pw.start_row + i
        if row < g'.height then setCell g' row pw.start_col none else g') g

/-- `try_optimize_single_word`: remove one randomly chosen placed word,
re-place it at the first fitting of its top-5 candidates, or restore it to
its original anchor if none fits. -/
def try_optimize_single_word (s : Sol) (r : R) : (Bool × Sol) × R :=
  if s.words.isEmpty then ((false, s), r)
  else
    let p := gen_range 0 s.words.length r
    let pw := s.words.getD p.1 default
    let g1 := remove_word_from_grid s.grid pw
    let pws1 := s.words.eraseIdx p.1
    let cands := generate_candidates g1 pw.word pw.direction
    match firstFitPlace g1 pw.word (cands.take 5) with
    | some (g2, npw) => ((true, ⟨g2, pws1 ++ [npw]⟩), p.2)
    | none =>
      let rrow := match pw.direction with
        | .horizontal => pw.start_row
        | .vertical => pw.start_row + pw.word.length - 1
      let rcol := match pw.direction with
        | .horizontal => pw.start_col + pw.word.length - 1
        | .vertical => pw.start_col
      let pg := place_word g1 pw.word rrow rcol pw.direction
      if pg.1 then ((false, ⟨pg.2, pws1 ++ [pw]⟩), p.2)
      else ((false, ⟨pg.2, pws1⟩), p.2)

/-- The running state of `generate_simulated_annealing`. -/
structure SAState where
  cur : Sol
  best : Sol
  best_score : Frac
  temperature : ℚ
  rand : R
deriving DecidableEq, Repr

/-- One iteration of the simulated-annealing loop (iteration index `i`):
cool the temperature every 50 iterations (including iteration 0), perturb
one word, and apply the Metropolis acceptance rule (`delta > 0` is
`current_score < new_score` by cross multiplication; the worse-move coin
comes from the oracle). -/
def sa_step (i : Nat) (st : SAState) : SAState :=
  let temp := if i % 50 = 0 then st.temperature * (19 / 20) else st.temperature
  let q := try_optimize_single_word st.cur st.rand
  let moved := q.1.1
  let newSol := q.1.2
  let r1 := q.2
  if moved then
    let new_score := evaluate_solution newSol.grid newSol.words
    let current_score := evaluate_solution st.cur.grid st.cur.words
    let accept : Bool × R :=
      if Frac.lt current_score new_score then (true, r1) else gen_coin r1
    if accept.1 then
      if Frac.lt st.best_score new_score then
        ⟨newSol, newSol, new_score, temp, accept.2⟩
      else ⟨newSol, st.best, st.best_score, temp, accept.2⟩
    else ⟨st.cur, st.best, st.best_score, temp, accept.2⟩
  else ⟨st.cur, st.best, st.best_score, temp, r1⟩

/-- The initial annealing state for a given solution and oracle. -/
def saInit (s : Sol) (r : R) : SAState :=
  ⟨s, s, evaluate_solution s.grid s.words, 1000, r⟩

/-- The annealing state after `n` iterations. -/
def sa_states (init : SAState) : Nat → SAState
  | 0 => init
  | n + 1 => sa_step n (sa_states init n)

/-- `generate_simulated_annealing`: run `iterations` iterations and return
the best-scoring state ever accepted. -/
def generate_simulated_annealing (s : Sol) (iterations : Nat) (r : R) :
    Sol × R :=
  let stN := sa_states (saInit s r) iterations
  (stN.best, stN.rand)

/-- Integer square root (largest `k` with `k·k ≤ n`), by linear search so
that it computes by kernel reduction. -/
def isqrt (n : Nat) : Nat :=
  ((List.range (n + 1)).takeWhile fun k => k * k ≤ n).length - 1

/-- `estimate_grid_size`: character-count estimate with a 0.85 overlap
factor (`(total · 0.85) as usize` = `17·total / 20` exactly, as the `f64`
product of these small integers truncates to the same value), floored so
the longest words and the word counts fit (and at least 10 in each
dimension).  `f64` `sqrt`-and-truncate on these integer inputs is the
integer square root. -/
def estimate_grid_size (gen : Gen) : Nat × Nat :=
  let max_h_len := (gen.horizontal_words.map List.length).foldr max 0
  let max_v_len := (gen.vertical_words.map List.length).foldr max 0
  let h_chars := (gen.horizontal_words.map List.length).sum
  let v_chars := (gen.vertical_words.map List.length).sum
  let total_chars := h_chars + v_chars
  let estimated_area := 17 * total_chars / 20
  let estimated_side := isqrt estimated_area
  let min_width := max (max max_h_len gen.vertical_words.length) 10
  let min_height := max (max max_v_len gen.horizontal_words.length) 10
  (max estimated_side min_width, max estimated_side min_height)

/-- The strategy tags of the escalation schedule of `generate`. -/
inductive Algo where
  | optimized
  | intersection_first
  | standard
deriving DecidableEq, Repr

/-- The escalation schedule of `generate`: strategy and size multiplier
as an exact fraction (0.6, 0.7, 0.8, 1.0, 1.2; each stage also gets
`max_attempts / 5` attempts). -/
def algorithms : List (Algo × Nat × Nat) :=
  [(.optimized, 6, 10), (.intersection_first, 7, 10), (.optimized, 8, 10),
    (.optimized, 1, 1), (.standard, 12, 10)]

/-- Dispatch one schedule stage to its strategy. -/
def runStage (gen : Gen) (a : Algo) (width height attempts : Nat) (r : R) :
    Option Sol × R :=
  match a with
  | .optimized => generate_optimized gen width height attempts r
  | .intersection_first => generate_intersection_first gen width height attempts r
  | .standard => generate_with_size gen width height attempts r

/-- The post-processing that `generate` applies to the first successful
stage: 100 annealing iterations, `compact` with `saturating_sub` anchor
adjustment, then trimming empty rows and columns until stable. -/
def post_process (s : Sol) (r : R) : Sol × R :=
  let q := generate_simulated_annealing s 100 r
  let c := compact q.1.grid
  let row_offset := c.1.1
  let col_offset := c.1.2
  let pws2 := q.1.words.map fun pw =>
    { pw with start_row := pw.start_row - row_offset,
              start_col := pw.start_col - col_offset }
  let g3 := trimAll c.2
  (⟨g3, pws2⟩, q.2)

/-- The stage loop of `generate`: run the schedule in order, post-process
and return the first success, keep going otherwise.  A stage with
multiplier `mn/md` uses the grid `⌊mn·iw/md⌋ × ⌊mn·ih/md⌋` (this natural
division is exactly the Rust `(iw as f64 * m) as usize` for the engine's
multipliers and sizes). -/
def generateAux (gen : Gen) (iw ih attempts : Nat) :
    List (Algo × Nat × Nat) → R → Option Sol × R
  | [], r => (none, r)
  | (a, mn, md) :: rest, r =>
    let width := mn * iw / md
    let height := mn * ih / md
    match runStage gen a width height attempts r with
    | (some s, r1) =>
      let q := post_process s r1
      (some q.1, q.2)
    | (none, r1) => generateAux gen iw ih attempts rest r1

/-- `generate`: the orchestrator.  Estimates the base grid size, then runs
the five-stage escalation schedule, returning the post-processed first
success or `none` when every stage fails. -/
def generate (gen : Gen) (max_attempts : Nat) (r : R) : Option Sol × R :=
  let e := estimate_grid_size gen
  generateAux gen e.1 e.2 (max_attempts / 5) algorithms r

/-! Specification-side definitions: these express properties claimed of
the engine and are not part of the embedded code. -/

/-- The grid content along the anchored span of a placed word (top-left
anchor convention of §3 of the specification). -/
def readSpan (g : Grid) (pw : PlacedWord) : List (Option Char) :=
  match pw.direction with
  | .horizontal => (List.range pw.word.length).map fun i =>
      g.cell pw.start_row (pw.start_col + i)
  | .vertical => (List.range pw.word.length).map fun i =>
      g.cell (pw.start_row + i) pw.start_col

/-- Whether every placed word of a solution reads back from the grid along
its anchored span. -/
def solSpansOk (s : Sol) : Bool :=
  s.words.all fun pw => decide (readSpan s.grid pw = pw.word.map some)

/-- The bag of words of a placed-word list. -/
def wordsOf (pws : List PlacedWord) : List (List Char) :=
  pws.map PlacedWord.word

/-- Comparator-level equivalence: neither element beats the other.  For a
comparator that orders by a key, this says the keys are equal. -/
def eqvB (gt : α → α → Bool) (p x : α) : Bool := !gt x p && !gt p x

/-- Grid position of the `i`-th character of a word of length `len`
anchored at `(row, col)` (anchor = rightmost column for horizontal words,
bottom row for vertical ones). -/
def spanPos (row col len : Nat) (d : Direction) (i : Nat) : Nat × Nat :=
  match d with
  | .horizontal => (row, col + 1 - len + i)
  | .vertical => (row + 1 - len + i, col)

/-- The number of occupied cells along the anchored span that hold the
identical character (the claimed per-cell intersection count). -/
def span_match_count (g : Grid) (w : List Char) (row col : Nat) :
    Direction → Nat
  | .horizontal => matchCountH g row (col + 1 - w.length) w
  | .vertical => matchCountV g col (row + 1 - w.length) w

/-- The anchors enumerated by `generate_candidates` for a word of length
`len`: every row and every column from `len − 1` on, inside the grid
(symmetric in the vertical case). -/
def anchorInRange (g : Grid) (len row col : Nat) : Direction → Prop
  | .horizontal => row < g.height ∧ len - 1 ≤ col ∧ col < g.width
  | .vertical => len - 1 ≤ row ∧ row < g.height ∧ col < g.width

/-- The claimed placement-score formula: `100` minus the euclidean
distance from the anchor to the grid center, plus `50` per coinciding
occupied cell, plus `2·len`, plus `25` per coinciding cell again. -/
noncomputable def placementScoreSpec (g : Grid) (w : List Char)
    (row col : Nat) (d : Direction) : ℝ :=
  let m := span_match_count g w row col d
  100 - Real.sqrt (((row : ℝ) - (g.height : ℝ) / 2) ^ 2
      + ((col : ℝ) - (g.width : ℝ) / 2) ^ 2)
    + 50 * m + 2 * w.length + 25 * m

/-- Concrete input used to exercise `generate`: two horizontal words and
one vertical word; the seven-letter word cannot fit the 6×6 first-stage
grid, so the intersection-first stage is the first that can succeed. -/
def input1 : WordLists :=
  ⟨[['A', 'B', 'C', 'D', 'E', 'F', 'G'], ['A', 'B']], [['A', 'C']]⟩

/-- An oracle for `generate input1`: stage 1 keeps the shuffles in place
and fails on the seven-letter word; stage 2 brings the small-word
intersection to the front of the shuffled list; the 100 annealing
iterations each pick word 2 (whose best candidate is its current
position) and draw a true Metropolis coin. -/
def draws1 : R := [1, 0, 1] ++ (List.replicate 100 [2, 1]).flatten

/-- The empty input (no words at all). -/
def emptyInput : WordLists := ⟨[], []⟩

/-- A trivial solution on a fresh 1×1 grid, used to exercise the
annealing loop. -/
def trivSol : Sol := ⟨Grid.new 1 1, []⟩

/-- The grid cells listed as `(row, col, content)` triples in scan order;
the scan of `calculate_used_area` is a fold over this list. -/
def gridTriples (g : Grid) : List (Nat × Nat × Option Char) :=
  g.cells.enum.flatMap fun rc => rc.2.enum.map fun cc => (rc.1, cc.1, cc.2)

/-- The `calculate_used_area` scan as a single fold over cell triples. -/
def areaFold (l : List (Nat × Nat × Option Char)) (a : AreaAcc) : AreaAcc :=
  l.foldl (fun a' t => areaStep t.1 t.2.1 t.2.2 a') a

/-- The words of a flag list not yet placed in phase 1 of
`generate_intersection_first` (the `zip`-with-flags iteration of its
phase 2): keep each word whose flag is false. -/
def unusedW : List (List Char) → List Bool → List (List Char)
  | [], _ => []
  | _ :: _, [] => []
  | w :: ws, f :: fs => if f then unusedW ws fs else w :: unusedW ws fs

/-- Resolve a placement queue of `generate_optimized` to the words it will
place. -/
def qmap (gen : Gen) (q : List (Nat × Direction)) : List (List Char) :=
  q.map fun p =>
    match p.2 with
    | .horizontal => gen.horizontal_words.getD p.1 []
    | .vertical => gen.vertical_words.getD p.1 []

/-! Properties of the stable insertion sort modelling Rust's `sort_by`. -/

section StableSort

variable {α : Type*} {K : Type*} [LinearOrder K]

theorem insertByGt_perm (gt : α → α → Bool) (x : α) (l : List α) :
    List.Perm (insertByGt gt x l) (x :: l) := by
  induction l with
  | nil => rfl
  | cons y ys ih =>
    simp only [insertByGt]
    split
    · exact List.Perm.refl _
    · exact (ih.cons y).trans (List.Perm.swap x y ys)

theorem foldl_insertByGt_perm (gt : α → α → Bool) (l acc : List α) :
    List.Perm (l.foldl (fun a x => insertByGt gt x a) acc) (acc ++ l) := by
  induction l generalizing acc with
  | nil => simp
  | cons x xs ih =>
    simp only [List.foldl_cons]
    refine (ih (insertByGt gt x acc)).trans ?_
    refine ((insertByGt_perm gt x acc).append_right xs).trans ?_
    exact List.perm_middle.symm

theorem stableSortByGt_perm (gt : α → α → Bool) (l : List α) :
    List.Perm (stableSortByGt gt l) l := by
  simpa using foldl_insertByGt_perm gt l []

theorem gt_eq_false_iff (gt : α → α → Bool) (k : α → K)
    (hgt : ∀ a b, gt a b = true ↔ k b < k a) (a b : α) :
    gt a b = false ↔ k a ≤ k b := by
  rw [← not_lt, ← hgt a b]
  cases h : gt a b <;> simp [h]

theorem eqvB_iff (gt : α → α → Bool) (k : α → K)
    (hgt : ∀ a b, gt a b = true ↔ k b < k a) (p x : α) :
    eqvB gt p x = true ↔ k x = k p := by
  simp only [eqvB, Bool.and_eq_true, Bool.not_eq_true']
  rw [gt_eq_false_iff gt k hgt, gt_eq_false_iff gt k hgt]
  constructor
  · rintro ⟨h1, h2⟩; exact le_antisymm h1 h2
  · intro h; exact ⟨h.le, h.ge⟩

theorem insertByGt_sorted (gt : α → α → Bool) (k : α → K)
    (hgt : ∀ a b, gt a b = true ↔ k b < k a) (x : α) (l : List α)
    (hl : l.Pairwise fun a b => k b ≤ k a) :
    (insertByGt gt x l).Pairwise fun a b => k b ≤ k a := by
  induction l with
  | nil => simp [insertByGt]
  | cons y ys ih =>
    rcases List.pairwise_cons.1 hl with ⟨hy, hys⟩
    simp only [insertByGt]
    split
    case isTrue h =>
      refine List.pairwise_cons.2 ⟨?_, hl⟩
      have hyx : k y ≤ k x := ((hgt x y).1 h).le
      intro z hz
      rcases List.mem_cons.1 hz with hzy | hz
      · rw [hzy]; exact hyx
      · exact (hy z hz).trans hyx
    case isFalse h =>
      refine List.pairwise_cons.2 ⟨?_, ih hys⟩
      have hxy : k x ≤ k y :=
        (gt_eq_false_iff gt k hgt x y).1 (Bool.eq_false_iff.2 h)
      intro z hz
      have hz' := (insertByGt_perm gt x ys).mem_iff.1 hz
      rcases List.mem_cons.1 hz' with hzx | hz'
      · rw [hzx]; exact hxy
      · exact hy z hz'

theorem foldl_insertByGt_sorted (gt : α → α → Bool) (k : α → K)
    (hgt : ∀ a b, gt a b = true ↔ k b < k a) (l acc : List α)
    (hacc : acc.Pairwise fun a b => k b ≤ k a) :
    (l.foldl (fun a x => insertByGt gt x a) acc).Pairwise
      fun a b => k b ≤ k a := by
  induction l generalizing acc with
  | nil => exact hacc
  | cons x xs ih =>
    exact ih (insertByGt gt x acc) (insertByGt_sorted gt k hgt x acc hacc)

theorem stableSortByGt_sorted (gt : α → α → Bool) (k : α → K)
    (hgt : ∀ a b, gt a b = true ↔ k b < k a) (l : List α) :
    (stableSortByGt gt l).Pairwise fun a b => k b ≤ k a :=
  foldl_insertByGt_sorted gt k hgt l [] List.Pairwise.nil

theorem filter_eqv_eq_nil (gt : α → α → Bool) (k : α → K)
    (hgt : ∀ a b, gt a b = true ↔ k b < k a) (p : α) (l : List α)
    (hl : ∀ z ∈ l, k z < k p) : l.filter (eqvB gt p) = [] := by
  rw [List.filter_eq_nil_iff]
  intro z hz hc
  have h1 := (eqvB_iff gt k hgt p z).1 hc
  have h2 := hl z hz
  rw [h1] at h2
  exact lt_irrefl _ h2

theorem insertByGt_filter_eqv (gt : α → α → Bool) (k : α → K)
    (hgt : ∀ a b, gt a b = true ↔ k b < k a) (p x : α) (l : List α)
    (hl : l.Pairwise fun a b => k b ≤ k a) :
    (insertByGt gt x l).filter (eqvB gt p) =
      l.filter (eqvB gt p) ++ if eqvB gt p x then [x] else [] := by
  induction l with
  | nil => cases he : eqvB gt p x <;> simp [insertByGt, List.filter, he]
  | cons y ys ih =>
    rcases List.pairwise_cons.1 hl with ⟨hy, hys⟩
    simp only [insertByGt]
    split
    case isTrue h =>
      have hxy : k y < k x := (hgt x y).1 h
      by_cases he : eqvB gt p x = true
      · have hkxp : k x = k p := (eqvB_iff gt k hgt p x).1 he
        have hnil : (y :: ys).filter (eqvB gt p) = [] := by
          refine filter_eqv_eq_nil gt k hgt p _ ?_
          intro z hz
          rcases List.mem_cons.1 hz with hzy | hz
          · rw [hzy]; exact hkxp ▸ hxy
          · exact lt_of_le_of_lt (hy z hz) (hkxp ▸ hxy)
        rw [List.filter_cons_of_pos he, hnil, he]
        simp
      · have he' : eqvB gt p x = false := Bool.eq_false_iff.2 he
        rw [List.filter_cons_of_neg (by simp [he']), he']
        simp
    case isFalse h =>
      rw [List.filter_cons, ih hys, List.filter_cons]
      split <;> simp

theorem foldl_insertByGt_filter_eqv (gt : α → α → Bool) (k : α → K)
    (hgt : ∀ a b, gt a b = true ↔ k b < k a) (p : α) (l acc : List α)
    (hacc : acc.Pairwise fun a b => k b ≤ k a) :
    (l.foldl (fun a x => insertByGt gt x a) acc).filter (eqvB gt p) =
      acc.filter (eqvB gt p) ++ l.filter (eqvB gt p) := by
  induction l generalizing acc with
  | nil => simp
  | cons x xs ih =>
    simp only [List.foldl_cons]
    rw [ih (insertByGt gt x acc) (insertByGt_sorted gt k hgt x acc hacc)]
    rw [insertByGt_filter_eqv gt k hgt p x acc hacc, List.filter_cons]
    cases he : eqvB gt p x <;> simp [he]

theorem stableSortByGt_filter_eqv (gt : α → α → Bool) (k : α → K)
    (hgt : ∀ a b, gt a b = true ↔ k b < k a) (p : α) (l : List α) :
    (stableSortByGt gt l).filter (eqvB gt p) = l.filter (eqvB gt p) := by
  simpa using foldl_insertByGt_filter_eqv gt k hgt p l [] List.Pairwise.nil

end StableSort

/-! Claim C10: the constructor's stable length sort. -/

theorem lenGt_iff (a b : List Char) :
    lenGt a b = true ↔ b.length < a.length := by
  simp [lenGt]

theorem eqvB_lenGt (n : Nat) (x : List Char) :
    eqvB lenGt (List.replicate n 'A') x = decide (x.length = n) := by
  rcases h : eqvB lenGt (List.replicate n 'A') x with _ | _
  · symm
    rw [decide_eq_false_iff_not]
    intro hc
    rw [← List.length_replicate n 'A'] at hc
    rw [(eqvB_iff lenGt List.length lenGt_iff _ x).2 hc] at h
    cases h
  · symm
    rw [decide_eq_true_eq]
    have := (eqvB_iff lenGt List.length lenGt_iff (List.replicate n 'A') x).1 h
    simpa using this

theorem sortLen_filter (l : List (List Char)) (n : Nat) :
    (stableSortByGt lenGt l).filter (fun w => decide (w.length = n)) =
      l.filter fun w => decide (w.length = n) := by
  have key := stableSortByGt_filter_eqv lenGt List.length lenGt_iff
    (List.replicate n 'A') l
  rwa [List.filter_congr (fun x _ => eqvB_lenGt n x),
    List.filter_congr (fun x _ => eqvB_lenGt n x)] at key

/-- C10: `WordSearchGenerator::new` reorders each of the two word lists
into a stable, non-increasing-length permutation of the input (longest
first): the generator's fields are the stable length-descending sorts of
the input lists, each a permutation of its input with lengths pairwise
non-increasing, and words of any fixed length keep their input order.
All engine indices refer to these sorted fields. -/
theorem C10_constructor_sorted (wl : WordLists) :
    (mkGen wl).horizontal_words = stableSortByGt lenGt wl.horizontal ∧
    (mkGen wl).vertical_words = stableSortByGt lenGt wl.vertical ∧
    List.Perm (mkGen wl).horizontal_words wl.horizontal ∧
    List.Perm (mkGen wl).vertical_words wl.vertical ∧
    ((mkGen wl).horizontal_words.Pairwise fun a b => b.length ≤ a.length) ∧
    ((mkGen wl).vertical_words.Pairwise fun a b => b.length ≤ a.length) ∧
    (∀ n, (mkGen wl).horizontal_words.filter (fun w => decide (w.length = n)) =
      wl.horizontal.filter fun w => decide (w.length = n)) ∧
    ∀ n, (mkGen wl).vertical_words.filter (fun w => decide (w.length = n)) =
      wl.vertical.filter fun w => decide (w.length = n) := by
  refine ⟨rfl, rfl, stableSortByGt_perm lenGt _, stableSortByGt_perm lenGt _,
    stableSortByGt_sorted lenGt List.length lenGt_iff _,
    stableSortByGt_sorted lenGt List.length lenGt_iff _,
    fun n => sortLen_filter _ n, fun n => sortLen_filter _ n⟩

/-! Claim C7: the cooling schedule. -/

theorem sa_step_temperature (i : Nat) (st : SAState) :
    (sa_step i st).temperature =
      if i % 50 = 0 then st.temperature * (19 / 20) else st.temperature := by
  simp only [sa_step]
  repeat' split
  all_goals rfl

theorem sa_states_temperature (s : Sol) (r : R) (i : Nat) :
    (sa_states (saInit s r) (i + 1)).temperature
      = 1000 * ((19 : ℚ) / 20) ^ (i / 50 + 1) := by
  induction i with
  | zero =>
    show (sa_step 0 (saInit s r)).temperature = _
    rw [sa_step_temperature]
    norm_num [saInit]
  | succ i ih =>
    show (sa_step (i + 1) (sa_states (saInit s r) (i + 1))).temperature = _
    rw [sa_step_temperature, ih]
    by_cases h : (i + 1) % 50 = 0
    · have hq : (i + 1) / 50 = i / 50 + 1 := by omega
      rw [if_pos h, hq, pow_succ]
      ring
    · have hq : (i + 1) / 50 = i / 50 := by omega
      rw [if_neg h, hq]

/-- C7 counterexample: the claim says the acceptance tests of iterations
0 through 49 run at temperature `1000·0.95^0 = 1000`, but the cooling
branch `iteration % 50 == 0` already fires at iteration 0, so iteration 0
(and the whole first window) runs at 950. -/
theorem C7_counterexample :
    (sa_states (saInit trivSol []) 1).temperature = 950 ∧
      (sa_states (saInit trivSol []) 1).temperature ≠ 1000 := by
  have h := sa_states_temperature trivSol [] 0
  norm_num at h
  rw [h]
  norm_num

/-- C7 (amended): the temperature used in the acceptance test during
iterations `50·k` through `50·k + 49` equals `1000 · 0.95^(k+1)` — the
initial 1000 is multiplied by 0.95 once every 50 iterations, with the
first multiplication already applied before iteration 0's test (the
temperature used at iteration `i` is the one stored in the state after
`i + 1` steps, since `sa_step` cools first and then tests). -/
theorem C7_amended (s : Sol) (r : R) (i : Nat) :
    (sa_states (saInit s r) (i + 1)).temperature
      = 1000 * ((19 : ℚ) / 20) ^ (i / 50 + 1) :=
  sa_states_temperature s r i

/-! Claim C9: compaction and trimming are no-ops on compact grids. -/

theorem foldl_flatMap_eq {β γ δ : Type*} (f : δ → γ → δ) (g : β → List γ)
    (l : List β) (a : δ) :
    (l.flatMap g).foldl f a = l.foldl (fun a' x => (g x).foldl f a') a := by
  induction l generalizing a with
  | nil => rfl
  | cons x xs ih => simp [List.flatMap_cons, List.foldl_append, ih]

theorem calc_area_eq_fold (g : Grid) :
    calculate_used_area g =
      (let acc := areaFold (gridTriples g) ⟨g.height, 0, g.width, 0, false⟩
       if acc.has_content then
         (acc.min_row, acc.max_row, acc.min_col, acc.max_col)
       else (0, 0, 0, 0)) := by
  unfold calculate_used_area areaFold gridTriples
  rw [foldl_flatMap_eq]
  simp only [List.foldl_map]

theorem areaStep_has (r c : Nat) (x : Option Char) (a : AreaAcc)
    (h : a.has_content = true) : (areaStep r c x a).has_content = true := by
  cases x <;> simp [areaStep, h]

theorem areaFold_has (l : List (Nat × Nat × Option Char)) (a : AreaAcc)
    (h : a.has_content = true) : (areaFold l a).has_content = true := by
  induction l generalizing a with
  | nil => exact h
  | cons t ts ih => exact ih _ (areaStep_has t.1 t.2.1 t.2.2 a h)

theorem areaStep_bounds (r c : Nat) (x : Option Char) (a : AreaAcc) :
    (areaStep r c x a).min_row ≤ a.min_row ∧
      a.max_row ≤ (areaStep r c x a).max_row ∧
      (areaStep r c x a).min_col ≤ a.min_col ∧
      a.max_col ≤ (areaStep r c x a).max_col := by
  cases x <;> simp [areaStep]

theorem areaFold_bounds (l : List (Nat × Nat × Option Char)) (a : AreaAcc) :
    (areaFold l a).min_row ≤ a.min_row ∧ a.max_row ≤ (areaFold l a).max_row ∧
      (areaFold l a).min_col ≤ a.min_col ∧
      a.max_col ≤ (areaFold l a).max_col := by
  induction l generalizing a with
  | nil => exact ⟨le_refl _, le_refl _, le_refl _, le_refl _⟩
  | cons t ts ih =>
    have h1 := areaStep_bounds t.1 t.2.1 t.2.2 a
    have h2 := ih (areaStep t.1 t.2.1 t.2.2 a)
    exact ⟨h2.1.trans h1.1, h1.2.1.trans h2.2.1, h2.2.2.1.trans h1.2.2.1,
      h1.2.2.2.trans h2.2.2.2⟩

theorem areaFold_occ (l : List (Nat × Nat × Option Char)) (a : AreaAcc)
    (r c : Nat) (ch : Char) (h : (r, c, some ch) ∈ l) :
    (areaFold l a).has_content = true ∧ (areaFold l a).min_row ≤ r ∧
      r ≤ (areaFold l a).max_row ∧ (areaFold l a).min_col ≤ c ∧
      c ≤ (areaFold l a).max_col := by
  induction l generalizing a with
  | nil => cases h
  | cons t ts ih =>
    rcases List.mem_cons.1 h with ht | ht
    · subst ht
      show (areaFold ts (areaStep r c (some ch) a)).has_content = true ∧ _
      have hstep : areaStep r c (some ch) a =
          ⟨min a.min_row r, max a.max_row r, min a.min_col c,
            max a.max_col c, true⟩ := rfl
      have hb := areaFold_bounds ts (areaStep r c (some ch) a)
      refine ⟨areaFold_has ts _ (by rw [hstep]), ?_, ?_, ?_, ?_⟩
      · exact hb.1.trans (by rw [hstep]; exact min_le_right _ _)
      · exact le_trans (by rw [hstep]; exact le_max_right _ _) hb.2.1
      · exact hb.2.2.1.trans (by rw [hstep]; exact min_le_right _ _)
      · exact le_trans (by rw [hstep]; exact le_max_right _ _) hb.2.2.2
    · exact ih (areaStep t.1 t.2.1 t.2.2 a) ht

theorem areaFold_row_le (l : List (Nat × Nat × Option Char)) (a : AreaAcc)
    (B : Nat) (ha : a.max_row ≤ B) (hl : ∀ t ∈ l, t.1 ≤ B) :
    (areaFold l a).max_row ≤ B := by
  induction l generalizing a with
  | nil => exact ha
  | cons t ts ih =>
    refine ih (areaStep t.1 t.2.1 t.2.2 a) ?_ fun u hu => hl u (by simp [hu])
    have ht := hl t (by simp)
    rcases t with ⟨r, c, _ | ch⟩
    · exact ha
    · exact max_le ha ht

theorem areaFold_col_le (l : List (Nat × Nat × Option Char)) (a : AreaAcc)
    (B : Nat) (ha : a.max_col ≤ B) (hl : ∀ t ∈ l, t.2.1 ≤ B) :
    (areaFold l a).max_col ≤ B := by
  induction l generalizing a with
  | nil => exact ha
  | cons t ts ih =>
    refine ih (areaStep t.1 t.2.1 t.2.2 a) ?_ fun u hu => hl u (by simp [hu])
    have ht := hl t (by simp)
    rcases t with ⟨r, c, _ | ch⟩
    · exact ha
    · exact max_le ha ht

theorem gridTriples_mem (g : Grid) (r c : Nat) (x : Option Char) :
    (r, c, x) ∈ gridTriples g ↔
      ∃ row, g.cells.get? r = some row ∧ row.get? c = some x := by
  unfold gridTriples
  simp only [List.mem_flatMap, List.mem_map]
  constructor
  · rintro ⟨rc, hrc, cc, hcc, heq⟩
    obtain ⟨h1, h2, h3⟩ : rc.1 = r ∧ cc.1 = c ∧ cc.2 = x := by
      refine ⟨congrArg (fun t => t.1) heq, ?_, ?_⟩
      · exact congrArg (fun t => t.2.1) heq
      · exact congrArg (fun t => t.2.2) heq
    refine ⟨rc.2, ?_, ?_⟩
    · rw [← h1]
      exact List.mk_mem_enum_iff_get?.1 (by simpa using hrc)
    · rw [← h2, ← h3]
      exact List.mk_mem_enum_iff_get?.1 (by simpa using hcc)
  · rintro ⟨row, h1, h2⟩
    refine ⟨(r, row), List.mk_mem_enum_iff_get?.2 h1,
      (c, x), List.mk_mem_enum_iff_get?.2 h2, rfl⟩

theorem opt_isNone_false (row : List (Option Char)) (c : Nat)
    (hcc : ¬(row.getD c none).isNone = true) :
    ∃ ch, row.get? c = some (some ch) := by
  rcases hx : row.get? c with _ | v
  · rw [List.getD_eq_getD_get?, hx] at hcc
    simp at hcc
  · cases v with
    | none =>
      rw [List.getD_eq_getD_get?, hx] at hcc
      simp at hcc
    | some ch => exact ⟨ch, rfl⟩

theorem row_nonempty_exists (width : Nat) (row : List (Option Char))
    (h : rowIsEmpty width row = false) :
    ∃ c < width, ∃ ch, row.get? c = some (some ch) := by
  unfold rowIsEmpty at h
  rcases List.all_eq_false.1 h with ⟨c, hc, hcc⟩
  exact ⟨c, List.mem_range.1 hc, opt_isNone_false row c hcc⟩

theorem col_nonempty_exists (cells : List (List (Option Char))) (c : Nat)
    (h : colIsEmpty cells c = false) :
    ∃ r row, cells.get? r = some row ∧ ∃ ch, row.get? c = some (some ch) := by
  unfold colIsEmpty at h
  rcases List.all_eq_false.1 h with ⟨row, hrow, hcc⟩
  rcases List.mem_iff_get?.1 hrow with ⟨r, hr⟩
  exact ⟨r, row, hr, opt_isNone_false row c hcc⟩

theorem used_area_full (g : Grid) (hwf : g.wf) (hh : 1 ≤ g.height)
    (hw : 1 ≤ g.width)
    (hrow : ∀ row ∈ g.cells, rowIsEmpty g.width row = false)
    (hcol : ∀ c < g.width, colIsEmpty g.cells c = false) :
    calculate_used_area g = (0, g.height - 1, 0, g.width - 1) := by
  obtain ⟨hlen, hrows⟩ := hwf
  -- an occupied cell in a given nonempty row
  have rowOcc : ∀ r < g.height, ∃ c ch, (r, c, some ch) ∈ gridTriples g := by
    intro r hr
    have hr' : r < g.cells.length := by omega
    have hget := List.get?_eq_get hr'
    have hmem := List.get?_mem hget
    rcases row_nonempty_exists g.width _ (hrow _ hmem) with ⟨c, _, ch, hc⟩
    exact ⟨c, ch, (gridTriples_mem g r c (some ch)).2 ⟨_, hget, hc⟩⟩
  -- an occupied cell in a given nonempty column
  have colOcc : ∀ c < g.width, ∃ r ch, (r, c, some ch) ∈ gridTriples g := by
    intro c hc
    rcases col_nonempty_exists g.cells c (hcol c hc) with ⟨r, row, hr, ch, hch⟩
    exact ⟨r, ch, (gridTriples_mem g r c (some ch)).2 ⟨row, hr, hch⟩⟩
  -- global bounds on scanned triples
  have tripBound : ∀ t ∈ gridTriples g,
      t.1 ≤ g.height - 1 ∧ t.2.1 ≤ g.width - 1 := by
    rintro ⟨r, c, x⟩ ht
    rcases (gridTriples_mem g r c x).1 ht with ⟨row, h1, h2⟩
    have hr : r < g.cells.length := by
      by_contra hcon
      rw [List.get?_eq_none.2 (by omega)] at h1
      cases h1
    have hc : c < row.length := by
      by_contra hcon
      rw [List.get?_eq_none.2 (by omega)] at h2
      cases h2
    have hrw := hrows row (List.get?_mem h1)
    rw [hrw] at hc
    exact ⟨by show r ≤ g.height - 1; omega, by show c ≤ g.width - 1; omega⟩
  rw [calc_area_eq_fold]
  set a0 : AreaAcc := ⟨g.height, 0, g.width, 0, false⟩ with ha0
  rcases rowOcc 0 (by omega) with ⟨c0, ch0, h0⟩
  rcases rowOcc (g.height - 1) (by omega) with ⟨c1, ch1, h1⟩
  rcases colOcc 0 (by omega) with ⟨r2, ch2, h2⟩
  rcases colOcc (g.width - 1) (by omega) with ⟨r3, ch3, h3⟩
  have o0 := areaFold_occ (gridTriples g) a0 0 c0 ch0 h0
  have o1 := areaFold_occ (gridTriples g) a0 (g.height - 1) c1 ch1 h1
  have o2 := areaFold_occ (gridTriples g) a0 r2 0 ch2 h2
  have o3 := areaFold_occ (gridTriples g) a0 r3 (g.width - 1) ch3 h3
  have hbr := areaFold_row_le (gridTriples g) a0 (g.height - 1)
    (by simp [ha0]) fun t ht => (tripBound t ht).1
  have hbc := areaFold_col_le (gridTriples g) a0 (g.width - 1)
    (by simp [ha0]) fun t ht => (tripBound t ht).2
  simp only [o0.1, if_true]
  refine Prod.ext ?_ (Prod.ext ?_ (Prod.ext ?_ ?_)) <;> simp only
  · omega
  · omega
  · omega
  · omega

theorem grid_rebuild (g : Grid) (hwf : g.wf) :
    ((List.range g.height).map fun r =>
      (List.range g.width).map fun c => g.cell r c) = g.cells := by
  obtain ⟨hlen, hrows⟩ := hwf
  refine List.ext_getElem (by simp [hlen]) ?_
  intro n h1 h2
  have hn : n < g.height := by simpa using h1
  have hrow : g.cells[n].length = g.width := hrows _ (g.cells.getElem_mem h2)
  rw [List.getElem_map]
  refine List.ext_getElem (by simpa using hrow.symm) ?_
  intro m hm1 hm2
  rw [List.getElem_map]
  have hmw : m < g.width := by simpa using hm1
  unfold Grid.cell
  simp only [List.getElem_range]
  rw [List.getD_eq_getElem _ _ h2]
  rw [List.getD_eq_getElem _ _ (by rw [hrow]; exact hmw)]

theorem compact_noop (g : Grid) (hwf : g.wf) (hh : 1 ≤ g.height)
    (hw : 1 ≤ g.width)
    (hrow : ∀ row ∈ g.cells, rowIsEmpty g.width row = false)
    (hcol : ∀ c < g.width, colIsEmpty g.cells c = false) :
    compact g = ((0, 0), g) := by
  unfold compact
  rw [used_area_full g hwf hh hw hrow hcol]
  simp only
  have e1 : g.height - 1 - 0 + 1 = g.height := by omega
  have e2 : g.width - 1 - 0 + 1 = g.width := by omega
  rw [e1, e2]
  have : ((List.range g.height).map fun r =>
      (List.range g.width).map fun c => g.cell (0 + r) (0 + c)) = g.cells := by
    rw [← grid_rebuild g hwf]
    simp
  rw [this]

theorem removeEmptyRows_noop (w : Nat) (cells : List (List (Option Char)))
    (h : ∀ row ∈ cells, rowIsEmpty w row = false) :
    removeEmptyRows w cells = cells := by
  induction cells with
  | nil => rfl
  | cons row rest ih =>
    unfold removeEmptyRows
    rw [h row (by simp), ih fun r hr => h r (by simp [hr])]
    simp

theorem filterCols_all_keep (kp : Nat → Bool) (row : List (Option Char))
    (h : ∀ i < row.length, kp i = true) : filterCols kp row = row := by
  unfold filterCols
  have : row.enum.filter (fun ic => kp ic.1) = row.enum := by
    rw [List.filter_eq_self]
    rintro ⟨i, x⟩ hmem
    have := List.mk_mem_enum_iff_get?.1 hmem
    have hi : i < row.length := by
      by_contra hcon
      rw [List.get?_eq_none.2 (by omega)] at this
      cases this
    exact h i hi
  rw [this, List.enum_map_snd]

theorem try_remove_noop (g : Grid) (hwf : g.wf)
    (hrow : ∀ row ∈ g.cells, rowIsEmpty g.width row = false)
    (hcol : ∀ c < g.width, colIsEmpty g.cells c = false) :
    try_remove_empty_rows_cols g = (false, g) := by
  have hrem := removeEmptyRows_noop g.width g.cells hrow
  simp only [try_remove_empty_rows_cols, hrem]
  have hfilt : ((List.range g.width).filter fun c => colIsEmpty g.cells c)
      = [] := by
    rw [List.filter_eq_nil_iff]
    intro c hc
    rw [hcol c (List.mem_range.1 hc)]
    simp
  have hkeep : ((List.range g.width).filter
      fun c => ! colIsEmpty g.cells c) = List.range g.width := by
    rw [List.filter_eq_self]
    intro c hc
    rw [hcol c (List.mem_range.1 hc)]
    rfl
  have hmap : (g.cells.map (filterCols fun c => ! colIsEmpty g.cells c))
      = g.cells := by
    rw [List.map_congr_left, List.map_id]
    intro row hmem
    refine filterCols_all_keep _ row fun i hi => ?_
    have hiw : i < g.width := by rw [← hwf.2 row hmem]; exact hi
    rw [hcol i hiw]
    rfl
  have hht : g.cells.length = g.height := hwf.1
  simp [hfilt, hkeep, hmap, hht]

/-- C9: on an already-compact well-formed grid (positive dimensions and
no fully-empty row or column, which makes the used bounding box span the
whole grid — recorded as the first conjunct), `compact` returns offset
`(0, 0)` and leaves dimensions and cells unchanged, and
`try_remove_empty_rows_cols` returns `false` and leaves the grid
unchanged; hence a second consecutive application of either operation is
a no-op (last two conjuncts). -/
theorem C9_compact_idempotent (g : Grid) (hwf : g.wf) (hh : 1 ≤ g.height)
    (hw : 1 ≤ g.width)
    (hrow : ∀ row ∈ g.cells, rowIsEmpty g.width row = false)
    (hcol : ∀ c < g.width, colIsEmpty g.cells c = false) :
    calculate_used_area g = (0, g.height - 1, 0, g.width - 1) ∧
    compact g = ((0, 0), g) ∧
    try_remove_empty_rows_cols g = (false, g) ∧
    compact (compact g).2 = ((0, 0), (compact g).2) ∧
    try_remove_empty_rows_cols (try_remove_empty_rows_cols g).2 =
      (false, (try_remove_empty_rows_cols g).2) := by
  have h1 := used_area_full g hwf hh hw hrow hcol
  have h2 := compact_noop g hwf hh hw hrow hcol
  have h3 := try_remove_noop g hwf hrow hcol
  refine ⟨h1, h2, h3, ?_, ?_⟩
  · rw [h2]
    exact h2
  · rw [h3]
    exact h3

/-- Witness: C9 applied to the concrete compact 1×1 grid holding `A`. -/
theorem C9_witness :
    calculate_used_area ⟨[[some 'A']], 1, 1⟩ = (0, 0, 0, 0) ∧
    compact ⟨[[some 'A']], 1, 1⟩ = ((0, 0), ⟨[[some 'A']], 1, 1⟩) ∧
    try_remove_empty_rows_cols ⟨[[some 'A']], 1, 1⟩ =
      (false, ⟨[[some 'A']], 1, 1⟩) ∧
    compact (compact ⟨[[some 'A']], 1, 1⟩).2 =
      ((0, 0), (compact ⟨[[some 'A']], 1, 1⟩).2) ∧
    try_remove_empty_rows_cols
        (try_remove_empty_rows_cols ⟨[[some 'A']], 1, 1⟩).2 =
      (false, (try_remove_empty_rows_cols ⟨[[some 'A']], 1, 1⟩).2) :=
  C9_compact_idempotent ⟨[[some 'A']], 1, 1⟩ (by decide) (by decide)
    (by decide) (by decide) (by decide)

/-! Claim C3: `can_place_word`. -/

theorem cellP_eq (g : Grid) (hwf : g.wf) (r c : Nat) (hr : r < g.height)
    (hc : c < g.width) : g.cellP r c = some (g.cell r c) := by
  obtain ⟨hlen, hrows⟩ := hwf
  have hr' : r < g.cells.length := by omega
  have hrow : g.cells[r].length = g.width := hrows _ (g.cells.getElem_mem hr')
  have hc' : c < g.cells[r].length := by omega
  unfold Grid.cellP Grid.cell
  rw [List.getElem?_eq_getElem hr']
  show g.cells[r][c]? = some ((g.cells.getD r []).getD c none)
  rw [List.getElem?_eq_getElem hc']
  rw [List.getD_eq_getElem _ _ hr', List.getD_eq_getElem _ _ hc']

theorem checkCellsHP_eq (g : Grid) (hwf : g.wf) (row : Nat)
    (hr : row < g.height) :
    ∀ (ws : List Char) (c : Nat), c + ws.length ≤ g.width →
      checkCellsHP g row c ws = some (checkCellsH g row c ws) := by
  intro ws
  induction ws with
  | nil => intro c _; rfl
  | cons ch rest ih =>
    intro c hcw
    have hc : c < g.width := by simp at hcw; omega
    have hnext : c + 1 + rest.length ≤ g.width := by simp at hcw; omega
    unfold checkCellsHP checkCellsH
    rw [cellP_eq g hwf row c hr hc]
    rcases g.cell row c with _ | existing
    · exact ih (c + 1) hnext
    · by_cases he : existing = ch <;> simp [he, ih (c + 1) hnext]

theorem checkCellsVP_eq (g : Grid) (hwf : g.wf) (col : Nat)
    (hc : col < g.width) :
    ∀ (ws : List Char) (r : Nat), r + ws.length ≤ g.height →
      checkCellsVP g col r ws = some (checkCellsV g col r ws) := by
  intro ws
  induction ws with
  | nil => intro r _; rfl
  | cons ch rest ih =>
    intro r hrw
    have hr : r < g.height := by simp at hrw; omega
    have hnext : r + 1 + rest.length ≤ g.height := by simp at hrw; omega
    unfold checkCellsVP checkCellsV
    rw [cellP_eq g hwf r col hr hc]
    rcases g.cell r col with _ | existing
    · exact ih (r + 1) hnext
    · by_cases he : existing = ch <;> simp [he, ih (r + 1) hnext]

theorem checkCellsH_iff (g : Grid) (row : Nat) :
    ∀ (ws : List Char) (c : Nat),
      checkCellsH g row c ws = true ↔
        ∀ i, (hi : i < ws.length) → g.cell row (c + i) = none ∨
          g.cell row (c + i) = some ws[i] := by
  intro ws
  induction ws with
  | nil => intro c; simp [checkCellsH]
  | cons ch rest ih =>
    intro c
    unfold checkCellsH
    rcases hc : g.cell row c with _ | existing
    · rw [ih (c + 1)]
      constructor
      · intro h i hi
        cases i with
        | zero => left; simpa using hc
        | succ j =>
          have := h j (by simpa using hi)
          simpa [Nat.add_assoc, Nat.add_comm 1 j] using this
      · intro h j hj
        have := h (j + 1) (by simpa using hj)
        simpa [Nat.add_assoc, Nat.add_comm 1 j] using this
    · show (if existing = ch then checkCellsH g row (c + 1) rest else false)
          = true ↔ _
      by_cases he : existing = ch
      · rw [if_pos he, ih (c + 1)]
        constructor
        · intro h i hi
          cases i with
          | zero => right; simp [hc, he]
          | succ j =>
            have := h j (by simpa using hi)
            simpa [Nat.add_assoc, Nat.add_comm 1 j] using this
        · intro h j hj
          have := h (j + 1) (by simpa using hj)
          simpa [Nat.add_assoc, Nat.add_comm 1 j] using this
      · rw [if_neg he]
        constructor
        · intro h; cases h
        · intro h
          have := h 0 (by simp)
          simp [hc] at this
          exact absurd this he

theorem checkCellsV_iff (g : Grid) (col : Nat) :
    ∀ (ws : List Char) (r : Nat),
      checkCellsV g col r ws = true ↔
        ∀ i, (hi : i < ws.length) → g.cell (r + i) col = none ∨
          g.cell (r + i) col = some ws[i] := by
  intro ws
  induction ws with
  | nil => intro r; simp [checkCellsV]
  | cons ch rest ih =>
    intro r
    unfold checkCellsV
    rcases hc : g.cell r col with _ | existing
    · rw [ih (r + 1)]
      constructor
      · intro h i hi
        cases i with
        | zero => left; simpa using hc
        | succ j =>
          have := h j (by simpa using hi)
          simpa [Nat.add_assoc, Nat.add_comm 1 j] using this
      · intro h j hj
        have := h (j + 1) (by simpa using hj)
        simpa [Nat.add_assoc, Nat.add_comm 1 j] using this
    · show (if existing = ch then checkCellsV g col (r + 1) rest else false)
          = true ↔ _
      by_cases he : existing = ch
      · rw [if_pos he, ih (r + 1)]
        constructor
        · intro h i hi
          cases i with
          | zero => right; simp [hc, he]
          | succ j =>
            have := h j (by simpa using hi)
            simpa [Nat.add_assoc, Nat.add_comm 1 j] using this
        · intro h j hj
          have := h (j + 1) (by simpa using hj)
          simpa [Nat.add_assoc, Nat.add_comm 1 j] using this
      · rw [if_neg he]
        constructor
        · intro h; cases h
        · intro h
          have := h 0 (by simp)
          simp [hc] at this
          exact absurd this he

theorem can_place_wordP_eq (g : Grid) (w : List Char) (row col : Nat)
    (d : Direction) (hwf : g.wf) (hr : row < g.height) (hc : col < g.width) :
    can_place_wordP g w row col d = some (can_place_word g w row col d) := by
  cases d with
  | horizontal =>
    by_cases hfit : col + 1 < w.length
    · unfold can_place_wordP can_place_word
      rw [if_pos hfit, if_pos hfit]
    · unfold can_place_wordP can_place_word
      rw [if_neg hfit, if_neg hfit]
      exact checkCellsHP_eq g hwf row hr w (col + 1 - w.length) (by omega)
  | vertical =>
    by_cases hfit : row + 1 < w.length
    · unfold can_place_wordP can_place_word
      rw [if_pos hfit, if_pos hfit]
    · unfold can_place_wordP can_place_word
      rw [if_neg hfit, if_neg hfit]
      exact checkCellsVP_eq g hwf col hc w (row + 1 - w.length) (by omega)

theorem can_place_word_iff (g : Grid) (w : List Char) (row col : Nat)
    (d : Direction) :
    can_place_word g w row col d = true ↔
      (match d with
       | .horizontal => w.length ≤ col + 1
       | .vertical => w.length ≤ row + 1) ∧
      ∀ i, (hi : i < w.length) →
        g.cell (spanPos row col w.length d i).1
            (spanPos row col w.length d i).2 = none ∨
          g.cell (spanPos row col w.length d i).1
            (spanPos row col w.length d i).2 = some w[i] := by
  cases d with
  | horizontal =>
    by_cases hfit : col + 1 < w.length
    · unfold can_place_word
      rw [if_pos hfit]
      constructor
      · intro hcon; cases hcon
      · rintro ⟨hlen, _⟩; omega
    · unfold can_place_word
      rw [if_neg hfit, checkCellsH_iff g row w (col + 1 - w.length)]
      constructor
      · intro h
        exact ⟨by omega, fun i hi => h i hi⟩
      · rintro ⟨_, h⟩
        exact fun i hi => h i hi
  | vertical =>
    by_cases hfit : row + 1 < w.length
    · unfold can_place_word
      rw [if_pos hfit]
      constructor
      · intro hcon; cases hcon
      · rintro ⟨hlen, _⟩; omega
    · unfold can_place_word
      rw [if_neg hfit, checkCellsV_iff g col w (row + 1 - w.length)]
      constructor
      · intro h
        exact ⟨by omega, fun i hi => h i hi⟩
      · rintro ⟨_, h⟩
        exact fun i hi => h i hi

theorem can_place_wordP_nil (g : Grid) (row col : Nat) (d : Direction) :
    can_place_wordP g [] row col d = some true := by
  cases d <;> rfl

theorem can_place_wordP_row_oob (g : Grid) (hwf : g.wf) (w : List Char)
    (row col : Nat) (hrow : g.height ≤ row) (hne : w ≠ [])
    (hlen : w.length ≤ col + 1) :
    can_place_wordP g w row col Direction.horizontal = none := by
  cases w with
  | nil => exact absurd rfl hne
  | cons ch rest =>
    show (if col + 1 < (ch :: rest).length then some false
      else checkCellsHP g row (col + 1 - (ch :: rest).length)
        (ch :: rest)) = none
    rw [if_neg (by omega)]
    show (match g.cellP row (col + 1 - (ch :: rest).length) with
      | none => none
      | some none =>
        checkCellsHP g row (col + 1 - (ch :: rest).length + 1) rest
      | some (some existing) =>
        if existing = ch then
          checkCellsHP g row (col + 1 - (ch :: rest).length + 1) rest
        else some false) = none
    have hcell : g.cellP row (col + 1 - (ch :: rest).length) = none := by
      unfold Grid.cellP
      rw [List.getElem?_eq_none (by rw [hwf.1]; exact hrow)]
    rw [hcell]

theorem can_place_wordP_col_oob (g : Grid) (hwf : g.wf) (w : List Char)
    (row col : Nat) (hcol : g.width ≤ col) (hne : w ≠ [])
    (hlen : w.length ≤ row + 1) :
    can_place_wordP g w row col Direction.vertical = none := by
  cases w with
  | nil => exact absurd rfl hne
  | cons ch rest =>
    show (if row + 1 < (ch :: rest).length then some false
      else checkCellsVP g col (row + 1 - (ch :: rest).length)
        (ch :: rest)) = none
    rw [if_neg (by omega)]
    show (match g.cellP (row + 1 - (ch :: rest).length) col with
      | none => none
      | some none =>
        checkCellsVP g col (row + 1 - (ch :: rest).length + 1) rest
      | some (some existing) =>
        if existing = ch then
          checkCellsVP g col (row + 1 - (ch :: rest).length + 1) rest
        else some false) = none
    have hcell : g.cellP (row + 1 - (ch :: rest).length) col = none := by
      unfold Grid.cellP
      cases hrow : g.cells[row + 1 - (ch :: rest).length]? with
      | none => rfl
      | some rowl =>
        have hmem : rowl ∈ g.cells := by
          obtain ⟨hlt, he⟩ := List.getElem?_eq_some.1 hrow
          exact he ▸ List.getElem_mem hlt
        exact List.getElem?_eq_none (by rw [hwf.2 rowl hmem]; exact hcol)
    rw [hcell]

/-- C3 counterexample: the claim says `can_place_word` returns `false`,
rather than failing, whenever the anchor lies outside the grid; but for
the one-letter word at row 5 of a 3×3 grid the length guard passes and
the unchecked indexing `self.cells[row][c]` panics (modelled as `none`
instead of `some false`). -/
theorem C3_counterexample :
    can_place_wordP (Grid.new 3 3) ['A'] 5 1 Direction.horizontal = none := by
  decide

/-- C3 (amended): for anchors inside the grid (`row < height`,
`col < width`) of a well-formed grid, `can_place_word` is panic-free and
returns `true` exactly when the word's whole anchored span fits (length
at most `col + 1` horizontally, `row + 1` vertically) and every spanned
cell is either empty or already holds the identical character; the
function is pure (in this embedding it is a function of the grid alone).
For anchors outside the grid the claim's "returns false" is wrong, but
the failure mode is input-dependent: the unchecked indexing panics at
the scan's first out-of-range read — in particular for every non-empty
word passing the length guard when `row ≥ height` (horizontal) or
`col ≥ width` (vertical) — while a zero-length word returns `true` at any
anchor because the scan reads nothing, and an in-bounds conflicting cell
earlier in the span still returns `false` before the out-of-range read
(last conjunct). -/
theorem C3_amended (g : Grid) (w : List Char) (row col : Nat) (d : Direction)
    (hwf : g.wf) (hr : row < g.height) (hc : col < g.width) :
    can_place_wordP g w row col d = some (can_place_word g w row col d) ∧
    (can_place_word g w row col d = true ↔
      (match d with
       | .horizontal => w.length ≤ col + 1
       | .vertical => w.length ≤ row + 1) ∧
      ∀ i, (hi : i < w.length) →
        g.cell (spanPos row col w.length d i).1
            (spanPos row col w.length d i).2 = none ∨
          g.cell (spanPos row col w.length d i).1
            (spanPos row col w.length d i).2 = some w[i]) ∧
    (∀ row' col' d', can_place_wordP g [] row' col' d' = some true) ∧
    (∀ (w' : List Char) row' col', g.height ≤ row' → w' ≠ [] →
      w'.length ≤ col' + 1 →
      can_place_wordP g w' row' col' Direction.horizontal = none) ∧
    (∀ (w' : List Char) row' col', g.width ≤ col' → w' ≠ [] →
      w'.length ≤ row' + 1 →
      can_place_wordP g w' row' col' Direction.vertical = none) ∧
    (∃ (g' : Grid) (w' : List Char) (row' col' : Nat),
      g'.wf ∧ g'.width ≤ col' ∧
      can_place_wordP g' w' row' col' Direction.horizontal = some false) :=
  ⟨can_place_wordP_eq g w row col d hwf hr hc,
    can_place_word_iff g w row col d,
    fun row' col' d' => can_place_wordP_nil g row' col' d',
    fun w' row' col' h1 h2 h3 =>
      can_place_wordP_row_oob g hwf w' row' col' h1 h2 h3,
    fun w' row' col' h1 h2 h3 =>
      can_place_wordP_col_oob g hwf w' row' col' h1 h2 h3,
    ⟨⟨[[some 'X', some 'X']], 2, 1⟩, ['A', 'B'], 0, 2, by decide, by decide,
      by decide⟩⟩

/-- Witness: C3 (amended) applied to a concrete in-bounds anchor, where
placing `AB` over an existing `A` is both panic-free and accepted. -/
theorem C3_witness :
    can_place_wordP ⟨[[some 'A', none], [none, none]], 2, 2⟩ ['A', 'B'] 0 1
      Direction.horizontal = some true := by
  have h := C3_amended ⟨[[some 'A', none], [none, none]], 2, 2⟩ ['A', 'B'] 0 1
    Direction.horizontal (by decide) (by decide) (by decide)
  rw [h.1]
  decide

/-! Claim C5: `find_all_intersections`. -/

theorem abs_two_mul_sub (a b : ℚ) : |2 * a - b| = 2 * |a - b / 2| := by
  rw [show (2 * a - b : ℚ) = 2 * (a - b / 2) by ring, abs_mul]
  norm_num

theorem interScore2_eq (gen : Gen) (it : Intersection) :
    (interScore2 gen it : ℚ) = 2 * score_intersection_potential gen it := by
  simp only [interScore2, score_intersection_potential]
  push_cast
  rw [abs_two_mul_sub, abs_two_mul_sub]
  ring

theorem interGt_iff (gen : Gen) (a b : Intersection) :
    interGt gen a b = true ↔
      score_intersection_potential gen b < score_intersection_potential gen a := by
  unfold interGt
  rw [decide_eq_true_eq]
  constructor
  · intro h
    have h2 : ((interScore2 gen b : ℤ) : ℚ) < ((interScore2 gen a : ℤ) : ℚ) := by
      exact_mod_cast h
    rw [interScore2_eq, interScore2_eq] at h2
    linarith
  · intro h
    have h2 : ((interScore2 gen b : ℤ) : ℚ) < ((interScore2 gen a : ℤ) : ℚ) := by
      rw [interScore2_eq, interScore2_eq]
      linarith
    exact_mod_cast h2

theorem enumIntersections_mem (gen : Gen) (q : Intersection) :
    q ∈ enumIntersections gen ↔
      ∃ hw vw, gen.horizontal_words.get? q.h_word_idx = some hw ∧
        gen.vertical_words.get? q.v_word_idx = some vw ∧
        hw.get? q.h_char_idx = some q.character ∧
        vw.get? q.v_char_idx = some q.character := by
  unfold enumIntersections
  simp only [List.mem_flatMap, List.mem_filterMap]
  constructor
  · rintro ⟨⟨i, hw⟩, hhi, ⟨j, vw⟩, hvi, ⟨a, ca⟩, hhc, ⟨b, cb⟩, hvc, hq⟩
    by_cases he : ca = cb
    · rw [if_pos he] at hq
      obtain rfl := Option.some.inj hq
      refine ⟨hw, vw, List.mk_mem_enum_iff_get?.1 hhi,
        List.mk_mem_enum_iff_get?.1 hvi, List.mk_mem_enum_iff_get?.1 hhc, ?_⟩
      show vw.get? b = some ca
      rw [he]
      exact List.mk_mem_enum_iff_get?.1 hvc
    · rw [if_neg he] at hq
      cases hq
  · rintro ⟨hw, vw, h1, h2, h3, h4⟩
    refine ⟨(q.h_word_idx, hw), List.mk_mem_enum_iff_get?.2 h1,
      (q.v_word_idx, vw), List.mk_mem_enum_iff_get?.2 h2,
      (q.h_char_idx, q.character), List.mk_mem_enum_iff_get?.2 h3,
      (q.v_char_idx, q.character), List.mk_mem_enum_iff_get?.2 h4, ?_⟩
    rw [if_pos rfl]

theorem enum_nodup {α : Type*} (l : List α) : l.enum.Nodup := by
  refine List.Nodup.of_map Prod.fst ?_
  rw [List.enum_map_fst]
  exact List.nodup_range _

theorem enum_pairwise_fst {α : Type*} (l : List α) :
    l.enum.Pairwise fun x y => x.1 ≠ y.1 := by
  have h : (l.enum.map Prod.fst).Nodup := by
    rw [List.enum_map_fst]
    exact List.nodup_range _
  rw [List.Nodup, List.pairwise_map] at h
  exact h

theorem enumIntersections_nodup (gen : Gen) : (enumIntersections gen).Nodup := by
  unfold enumIntersections
  rw [List.nodup_flatMap]
  constructor
  · rintro ⟨i, hw⟩ _
    rw [List.nodup_flatMap]
    constructor
    · rintro ⟨j, vw⟩ _
      rw [List.nodup_flatMap]
      constructor
      · rintro ⟨a, ca⟩ _
        refine List.Nodup.filterMap ?_ (enum_nodup vw)
        rintro ⟨b1, cb1⟩ ⟨b2, cb2⟩ q hq1 hq2
        simp only [Option.mem_def] at hq1 hq2
        have e1 : cb1 = ca ∧ b1 = q.v_char_idx := by
          by_cases he : ca = cb1
          · rw [if_pos he] at hq1
            obtain rfl := Option.some.inj hq1
            exact ⟨he.symm, rfl⟩
          · rw [if_neg he] at hq1
            cases hq1
        have e2 : cb2 = ca ∧ b2 = q.v_char_idx := by
          by_cases he : ca = cb2
          · rw [if_pos he] at hq2
            obtain rfl := Option.some.inj hq2
            exact ⟨he.symm, rfl⟩
          · rw [if_neg he] at hq2
            cases hq2
        rw [Prod.mk.injEq]
        exact ⟨e1.2.trans e2.2.symm, e1.1.trans e2.1.symm⟩
      · refine (enum_pairwise_fst hw).imp ?_
        rintro ⟨a1, c1⟩ ⟨a2, c2⟩ hne q hq1 hq2
        simp only [List.mem_filterMap] at hq1 hq2
        rcases hq1 with ⟨⟨b1, cb1⟩, _, hq1⟩
        rcases hq2 with ⟨⟨b2, cb2⟩, _, hq2⟩
        have e1 : a1 = q.h_char_idx := by
          by_cases he : c1 = cb1
          · rw [if_pos he] at hq1
            obtain rfl := Option.some.inj hq1
            rfl
          · rw [if_neg he] at hq1
            cases hq1
        have e2 : a2 = q.h_char_idx := by
          by_cases he : c2 = cb2
          · rw [if_pos he] at hq2
            obtain rfl := Option.some.inj hq2
            rfl
          · rw [if_neg he] at hq2
            cases hq2
        exact hne (e1.trans e2.symm)
    · refine (enum_pairwise_fst gen.vertical_words).imp ?_
      rintro ⟨j1, vw1⟩ ⟨j2, vw2⟩ hne q hq1 hq2
      simp only [List.mem_flatMap, List.mem_filterMap] at hq1 hq2
      rcases hq1 with ⟨⟨a1, c1⟩, _, ⟨b1, cb1⟩, _, hq1⟩
      rcases hq2 with ⟨⟨a2, c2⟩, _, ⟨b2, cb2⟩, _, hq2⟩
      have e1 : j1 = q.v_word_idx := by
        by_cases he : c1 = cb1
        · rw [if_pos he] at hq1
          obtain rfl := Option.some.inj hq1
          rfl
        · rw [if_neg he] at hq1
          cases hq1
      have e2 : j2 = q.v_word_idx := by
        by_cases he : c2 = cb2
        · rw [if_pos he] at hq2
          obtain rfl := Option.some.inj hq2
          rfl
        · rw [if_neg he] at hq2
          cases hq2
      exact hne (e1.trans e2.symm)
  · refine (enum_pairwise_fst gen.horizontal_words).imp ?_
    rintro ⟨i1, hw1⟩ ⟨i2, hw2⟩ hne q hq1 hq2
    simp only [List.mem_flatMap, List.mem_filterMap] at hq1 hq2
    rcases hq1 with ⟨⟨j1, vw1⟩, _, ⟨a1, c1⟩, _, ⟨b1, cb1⟩, _, hq1⟩
    rcases hq2 with ⟨⟨j2, vw2⟩, _, ⟨a2, c2⟩, _, ⟨b2, cb2⟩, _, hq2⟩
    have e1 : i1 = q.h_word_idx := by
      by_cases he : c1 = cb1
      · rw [if_pos he] at hq1
        obtain rfl := Option.some.inj hq1
        rfl
      · rw [if_neg he] at hq1
        cases hq1
    have e2 : i2 = q.h_word_idx := by
      by_cases he : c2 = cb2
      · rw [if_pos he] at hq2
        obtain rfl := Option.some.inj hq2
        rfl
      · rw [if_neg he] at hq2
        cases hq2
    exact hne (e1.trans e2.symm)

theorem eqvB_eq_decide {α K : Type*} [LinearOrder K] (gt : α → α → Bool)
    (k : α → K) (hgt : ∀ a b, gt a b = true ↔ k b < k a) (p x : α) :
    eqvB gt p x = decide (k x = k p) := by
  rcases h : eqvB gt p x with _ | _
  · symm
    rw [decide_eq_false_iff_not]
    intro hc
    rw [(eqvB_iff gt k hgt p x).2 hc] at h
    cases h
  · symm
    rw [decide_eq_true_eq]
    exact (eqvB_iff gt k hgt p x).1 h

/-- C5: `find_all_intersections` emits exactly one `Intersection` per
matching quadruple (its output is a duplicate-free permutation of the
loop enumeration, whose members are exactly the matching quadruples),
assigns the score `2(len h + len v) + (20 − (|hc − len h/2| + |vc − len
v/2|)) + 5·frequency`, and returns the list sorted descending by that
score with ties kept in enumeration order (stable sort). -/
theorem C5_find_all_intersections (gen : Gen) :
    List.Perm (find_all_intersections gen) (enumIntersections gen) ∧
    (∀ q, q ∈ find_all_intersections gen ↔
      ∃ hw vw, gen.horizontal_words.get? q.h_word_idx = some hw ∧
        gen.vertical_words.get? q.v_word_idx = some vw ∧
        hw.get? q.h_char_idx = some q.character ∧
        vw.get? q.v_char_idx = some q.character) ∧
    (find_all_intersections gen).Nodup ∧
    (∀ it, score_intersection_potential gen it =
      2 * (((gen.horizontal_words.getD it.h_word_idx []).length : ℚ)
          + ((gen.vertical_words.getD it.v_word_idx []).length : ℚ))
        + (20 - (|(it.h_char_idx : ℚ)
              - ((gen.horizontal_words.getD it.h_word_idx []).length : ℚ) / 2|
            + |(it.v_char_idx : ℚ)
              - ((gen.vertical_words.getD it.v_word_idx []).length : ℚ) / 2|))
        + 5 * (count_letter_frequency gen it.character : ℚ)) ∧
    ((find_all_intersections gen).Pairwise fun a b =>
      score_intersection_potential gen b ≤ score_intersection_potential gen a) ∧
    ∀ p, (find_all_intersections gen).filter
        (fun x => decide (score_intersection_potential gen x =
          score_intersection_potential gen p)) =
      (enumIntersections gen).filter fun x =>
        decide (score_intersection_potential gen x =
          score_intersection_potential gen p) := by
  have hperm : List.Perm (find_all_intersections gen) (enumIntersections gen) :=
    stableSortByGt_perm (interGt gen) (enumIntersections gen)
  refine ⟨hperm, ?_, ?_, ?_, ?_, ?_⟩
  · intro q
    rw [hperm.mem_iff]
    exact enumIntersections_mem gen q
  · exact hperm.nodup_iff.2 (enumIntersections_nodup gen)
  · intro it
    simp only [score_intersection_potential]
    ring
  · exact stableSortByGt_sorted (interGt gen)
      (score_intersection_potential gen) (interGt_iff gen) _
  · intro p
    have key := stableSortByGt_filter_eqv (interGt gen)
      (score_intersection_potential gen) (interGt_iff gen) p
      (enumIntersections gen)
    unfold find_all_intersections
    rwa [List.filter_congr fun x _ => eqvB_eq_decide (interGt gen)
        (score_intersection_potential gen) (interGt_iff gen) p x,
      List.filter_congr fun x _ => eqvB_eq_decide (interGt gen)
        (score_intersection_potential gen) (interGt_iff gen) p x] at key

/-! Claim C4: `generate_candidates` and its score comparator. -/

set_option maxHeartbeats 2000000 in
theorem sqrtLtB_iff (x : Nat) (p : Int) (y : Nat) :
    sqrtLtB x p y = true ↔ Real.sqrt x < (p : ℝ) + Real.sqrt y := by
  have hx0 : (0 : ℝ) ≤ (x : ℝ) := Nat.cast_nonneg x
  have hy0 : (0 : ℝ) ≤ (y : ℝ) := Nat.cast_nonneg y
  have hX2 : Real.sqrt x ^ 2 = x := Real.sq_sqrt hx0
  have hY2 : Real.sqrt y ^ 2 = y := Real.sq_sqrt hy0
  have hXn : 0 ≤ Real.sqrt x := Real.sqrt_nonneg _
  have hYn : 0 ≤ Real.sqrt y := Real.sqrt_nonneg _
  set X := Real.sqrt (x : ℝ) with hXdef
  set Y := Real.sqrt (y : ℝ) with hYdef
  unfold sqrtLtB
  by_cases hp : 0 ≤ p
  · rw [if_pos hp]
    have hpR : (0 : ℝ) ≤ (p : ℝ) := by exact_mod_cast hp
    simp only [Bool.or_eq_true, decide_eq_true_eq]
    constructor
    · intro hL
      have hRL : (x : ℝ) < (p : ℝ) ^ 2 + y ∨
          ((x : ℝ) - (p : ℝ) ^ 2 - y) ^ 2 < 4 * (p : ℝ) ^ 2 * y := by
        rcases hL with hL | hL
        · left; exact_mod_cast (by linarith : (x : ℤ) < p ^ 2 + y)
        · right; exact_mod_cast hL
      have hpos : 0 < (p : ℝ) + Y := by
        rcases eq_or_lt_of_le (add_nonneg hpR hYn) with heq | hpos
        · exfalso
          have hp0 : (p : ℝ) = 0 := by nlinarith
          have hY0 : Y = 0 := by nlinarith
          have hyz : (y : ℝ) = 0 := by nlinarith
          rcases hRL with hR | hR <;> nlinarith
        · exact hpos
      rw [hXdef, Real.sqrt_lt' hpos]
      rcases hRL with hR | hR
      · nlinarith [mul_nonneg hpR hYn]
      · -- from (x − p² − y)² < (2pY)², x − p² − y < 2pY
        have h2 : (x : ℝ) - (p : ℝ) ^ 2 - y < 2 * p * Y := by
          nlinarith [mul_nonneg hpR hYn, sq_nonneg ((x : ℝ) - (p : ℝ) ^ 2 - y + 2 * p * Y)]
        nlinarith
    · intro h
      by_cases hL : (x : ℤ) - p ^ 2 - y < 0
      · exact Or.inl hL
      · refine Or.inr ?_
        have hLR : (0 : ℝ) ≤ (x : ℝ) - (p : ℝ) ^ 2 - y := by
          exact_mod_cast (by linarith : (0 : ℤ) ≤ (x : ℤ) - p ^ 2 - y)
        have hxlt : (x : ℝ) < ((p : ℝ) + Y) ^ 2 := by
          have hge : 0 ≤ (p : ℝ) + Y := add_nonneg hpR hYn
          nlinarith
        have h2 : (x : ℝ) - (p : ℝ) ^ 2 - y < 2 * p * Y := by nlinarith
        have hfin : ((x : ℝ) - (p : ℝ) ^ 2 - y) ^ 2 < 4 * (p : ℝ) ^ 2 * y := by
          nlinarith [mul_nonneg hpR hYn]
        exact_mod_cast hfin
  · rw [if_neg hp]
    have hpR : (p : ℝ) < 0 := by exact_mod_cast (by omega : p < 0)
    simp only [Bool.and_eq_true, decide_eq_true_eq]
    constructor
    · rintro ⟨hM, hM2⟩
      have hMR : (0 : ℝ) < (y : ℝ) - x - (p : ℝ) ^ 2 := by
        exact_mod_cast hM
      have hM2R : 4 * (p : ℝ) ^ 2 * x < ((y : ℝ) - x - (p : ℝ) ^ 2) ^ 2 := by
        exact_mod_cast hM2
      have hnX : 0 ≤ 2 * (-(p : ℝ)) * X := by
        have : (0 : ℝ) ≤ -(p : ℝ) := by linarith
        positivity
      have h2 : 2 * (-(p : ℝ)) * X < (y : ℝ) - x - (p : ℝ) ^ 2 := by
        nlinarith [sq_nonneg (2 * (-(p : ℝ)) * X + ((y : ℝ) - x - (p : ℝ) ^ 2))]
      have hlt : X + (-(p : ℝ)) < Y := by
        have hb : 0 ≤ X + (-(p : ℝ)) := by linarith
        rw [hYdef, Real.lt_sqrt hb]
        nlinarith
      linarith
    · intro h
      have hlt : X + (-(p : ℝ)) < Y := by linarith
      have hb : 0 ≤ X + (-(p : ℝ)) := by linarith
      have hsq : (X + (-(p : ℝ))) ^ 2 < (y : ℝ) := by
        nlinarith
      have h2 : 2 * (-(p : ℝ)) * X < (y : ℝ) - x - (p : ℝ) ^ 2 := by nlinarith
      have hnX : 0 ≤ 2 * (-(p : ℝ)) * X := by
        have : (0 : ℝ) ≤ -(p : ℝ) := by linarith
        positivity
      constructor
      · exact_mod_cast (by nlinarith : (0 : ℝ) < (y : ℝ) - x - (p : ℝ) ^ 2)
      · exact_mod_cast (by nlinarith : 4 * (p : ℝ) ^ 2 * x <
          ((y : ℝ) - x - (p : ℝ) ^ 2) ^ 2)

theorem pscoreLt_iff (a b : PScore) :
    pscoreLt a b = true ↔ a.val < b.val := by
  unfold pscoreLt
  rw [sqrtLtB_iff]
  unfold PScore.val
  constructor
  · intro h
    have h2 : Real.sqrt b.d4 < 2 * (b.base : ℝ) - 2 * (a.base : ℝ)
        + Real.sqrt a.d4 := by
      push_cast at h
      linarith
    linarith
  · intro h
    have h2 : Real.sqrt b.d4 < 2 * (b.base : ℝ) - 2 * (a.base : ℝ)
        + Real.sqrt a.d4 := by linarith
    push_cast
    linarith

theorem candGt_iff (a b : PlacementCandidate) :
    candGt a b = true ↔ b.score.val < a.score.val := by
  unfold candGt
  exact pscoreLt_iff b.score a.score

theorem natDistSq_val (a b : Nat) :
    ((natDistSq a b : Nat) : ℝ) = ((a : ℝ) - (b : ℝ)) ^ 2 := by
  unfold natDistSq
  rcases le_total a b with h | h
  · rw [max_eq_right h, min_eq_left h]
    push_cast [Nat.cast_sub h]
    ring
  · rw [max_eq_left h, min_eq_right h]
    push_cast [Nat.cast_sub h]
    ring

theorem d4Of_val (g : Grid) (row col : Nat) :
    Real.sqrt (d4Of g row col) / 2 =
      Real.sqrt (((row : ℝ) - (g.height : ℝ) / 2) ^ 2
        + ((col : ℝ) - (g.width : ℝ) / 2) ^ 2) := by
  have key : ((d4Of g row col : Nat) : ℝ) =
      4 * (((row : ℝ) - (g.height : ℝ) / 2) ^ 2
        + ((col : ℝ) - (g.width : ℝ) / 2) ^ 2) := by
    unfold d4Of
    push_cast [natDistSq_val]
    ring
  rw [key, show (4 : ℝ) * (((row : ℝ) - (g.height : ℝ) / 2) ^ 2
      + ((col : ℝ) - (g.width : ℝ) / 2) ^ 2) = 2 ^ 2 *
      (((row : ℝ) - (g.height : ℝ) / 2) ^ 2
        + ((col : ℝ) - (g.width : ℝ) / 2) ^ 2) by ring]
  rw [Real.sqrt_mul (by positivity) _, Real.sqrt_sq (by norm_num)]
  ring

theorem placement_score_val (g : Grid) (w : List Char) (row col : Nat)
    (d : Direction) :
    (calculate_placement_score g w row col d).val =
      placementScoreSpec g w row col d := by
  cases d <;>
  · simp only [calculate_placement_score, placementScoreSpec, PScore.val,
      span_match_count]
    rw [d4Of_val]
    push_cast
    ring

theorem mem_drop_range (w k col : Nat) :
    col ∈ (List.range w).drop k ↔ k ≤ col ∧ col < w := by
  rw [List.mem_iff_getElem]
  constructor
  · rintro ⟨j, hj, hcol⟩
    rw [List.getElem_drop] at hcol
    rw [List.length_drop, List.length_range] at hj
    rw [List.getElem_range] at hcol
    omega
  · rintro ⟨h1, h2⟩
    refine ⟨col - k, ?_, ?_⟩
    · rw [List.length_drop, List.length_range]
      omega
    · rw [List.getElem_drop, List.getElem_range]
      omega

theorem candEnum_mem_iff (g : Grid) (w : List Char) (d : Direction)
    (cand : PlacementCandidate) :
    cand ∈ candEnum g w d ↔
      anchorInRange g w.length cand.row cand.col d ∧
      can_place_word g w cand.row cand.col d = true ∧
      cand = ⟨0, d, cand.row, cand.col,
        calculate_placement_score g w cand.row cand.col d, []⟩ := by
  cases d with
  | horizontal =>
    unfold candEnum anchorInRange
    simp only [List.mem_flatMap, List.mem_filterMap, List.mem_range]
    constructor
    · rintro ⟨row, hrow, col, hcol, hif⟩
      rw [mem_drop_range] at hcol
      by_cases hcp : can_place_word g w row col .horizontal
      · rw [if_pos hcp] at hif
        obtain rfl := Option.some.inj hif
        exact ⟨⟨hrow, hcol.1, hcol.2⟩, hcp, rfl⟩
      · rw [if_neg hcp] at hif
        cases hif
    · rintro ⟨⟨h1, h2, h3⟩, hcp, heq⟩
      refine ⟨cand.row, h1, cand.col, (mem_drop_range _ _ _).2 ⟨h2, h3⟩, ?_⟩
      rw [if_pos hcp, ← heq]
  | vertical =>
    unfold candEnum anchorInRange
    simp only [List.mem_flatMap, List.mem_filterMap, List.mem_range]
    constructor
    · rintro ⟨row, hrow, col, hcol, hif⟩
      rw [mem_drop_range] at hrow
      by_cases hcp : can_place_word g w row col .vertical
      · rw [if_pos hcp] at hif
        obtain rfl := Option.some.inj hif
        exact ⟨⟨hrow.1, hrow.2, hcol⟩, hcp, rfl⟩
      · rw [if_neg hcp] at hif
        cases hif
    · rintro ⟨⟨h1, h2, h3⟩, hcp, heq⟩
      refine ⟨cand.row, (mem_drop_range _ _ _).2 ⟨h1, h2⟩, cand.col, h3, ?_⟩
      rw [if_pos hcp, ← heq]

theorem candColAuxP_eq (g : Grid) (w : List Char) (d : Direction) (row : Nat)
    (cols : List Nat) (hwf : g.wf) (hr : row < g.height)
    (hc : ∀ col ∈ cols, col < g.width) :
    candColAuxP g w d row cols =
      some (cols.filterMap fun col =>
        if can_place_word g w row col d then
          some ⟨0, d, row, col, calculate_placement_score g w row col d, []⟩
        else none) := by
  induction cols with
  | nil => rfl
  | cons col rest ih =>
    have hcol : col < g.width := hc col (List.mem_cons_self col rest)
    have hrest : ∀ c ∈ rest, c < g.width :=
      fun c h => hc c (List.mem_cons_of_mem col h)
    unfold candColAuxP
    rw [can_place_wordP_eq g w row col d hwf hr hcol, List.filterMap_cons]
    cases h : can_place_word g w row col d with
    | true => simp [ih hrest]
    | false => simp [ih hrest]

theorem candEnumAuxP_eq (g : Grid) (w : List Char) (d : Direction)
    (rows cols : List Nat) (hwf : g.wf)
    (hr : ∀ row ∈ rows, row < g.height) (hc : ∀ col ∈ cols, col < g.width) :
    candEnumAuxP g w d rows cols =
      some (rows.flatMap fun row => cols.filterMap fun col =>
        if can_place_word g w row col d then
          some ⟨0, d, row, col, calculate_placement_score g w row col d, []⟩
        else none) := by
  induction rows with
  | nil => rfl
  | cons row rest ih =>
    unfold candEnumAuxP
    rw [candColAuxP_eq g w d row cols hwf
        (hr row (List.mem_cons_self row rest)) hc,
      ih (fun r h => hr r (List.mem_cons_of_mem row h))]
    simp [List.flatMap_cons]

theorem generate_candidatesP_eq (g : Grid) (w : List Char) (d : Direction)
    (hwf : g.wf) (hw : w ≠ []) :
    generate_candidatesP g w d = some (generate_candidates g w d) := by
  cases w with
  | nil => exact absurd rfl hw
  | cons ch rest =>
    cases d with
    | horizontal =>
      have hcand := candEnumAuxP_eq g (ch :: rest) Direction.horizontal
        (List.range g.height)
        ((List.range g.width).drop ((ch :: rest).length - 1)) hwf
        (fun r h => List.mem_range.1 h)
        (fun c h => List.mem_range.1 (List.drop_subset _ _ h))
      simp only [List.length_cons] at hcand
      simp only [generate_candidatesP, List.length_cons]
      rw [hcand]
      rfl
    | vertical =>
      have hcand := candEnumAuxP_eq g (ch :: rest) Direction.vertical
        ((List.range g.height).drop ((ch :: rest).length - 1))
        (List.range g.width) hwf
        (fun r h => List.mem_range.1 (List.drop_subset _ _ h))
        (fun c h => List.mem_range.1 h)
      simp only [List.length_cons] at hcand
      simp only [generate_candidatesP, List.length_cons]
      rw [hcand]
      rfl

theorem generate_candidates_eq_nil_iff (g : Grid) (w : List Char)
    (d : Direction) :
    generate_candidates g w d = [] ↔
      ∀ row col, anchorInRange g w.length row col d →
        can_place_word g w row col d = false := by
  have hperm := stableSortByGt_perm candGt (candEnum g w d)
  have hnil : generate_candidates g w d = [] ↔ candEnum g w d = [] := by
    unfold generate_candidates
    rw [List.take_eq_nil_iff]
    constructor
    · rintro (h | h)
      · cases h
      · exact ((h ▸ hperm).symm).eq_nil
    · intro h
      refine Or.inr ?_
      rw [h] at hperm ⊢
      exact hperm.eq_nil
  rw [hnil, List.eq_nil_iff_forall_not_mem]
  constructor
  · intro h row col hrange
    by_contra hcp
    rw [Bool.not_eq_false] at hcp
    exact h ⟨0, d, row, col, calculate_placement_score g w row col d, []⟩
      ((candEnum_mem_iff g w d _).2 ⟨hrange, hcp, rfl⟩)
  · intro h cand hmem
    obtain ⟨hrange, hcp, _⟩ := (candEnum_mem_iff g w d cand).1 hmem
    rw [h cand.row cand.col hrange] at hcp
    cases hcp

/-- C4 counterexample: the claim quantifies over every word, but for a
zero-length word the loop bound `word.len() - 1` underflows and the run
panics (modelled by `none`) instead of producing a candidate list. -/
theorem C4_counterexample :
    generate_candidatesP (Grid.new 4 4) [] Direction.horizontal = none := rfl

/-- C4 (amended to well-formed grids and non-empty words, where the code
is panic-free): `generate_candidates` enumerates exactly the anchors in
the claimed ranges where `can_place_word` succeeds, scores each anchor by
the claimed formula `100 − dist(anchor, center) + 50·matches + 2·len +
25·matches` (exact real arithmetic), returns them sorted descending by
score truncated to at most 50, and returns `[]` iff no legal placement
exists in the enumerated ranges. -/
theorem C4_amended (g : Grid) (w : List Char) (d : Direction)
    (hwf : g.wf) (hw : w ≠ []) :
    generate_candidatesP g w d = some (generate_candidates g w d) ∧
    generate_candidates g w d =
      (stableSortByGt candGt (candEnum g w d)).take 50 ∧
    (∀ cand, cand ∈ candEnum g w d ↔
      anchorInRange g w.length cand.row cand.col d ∧
      can_place_word g w cand.row cand.col d = true ∧
      cand = ⟨0, d, cand.row, cand.col,
        calculate_placement_score g w cand.row cand.col d, []⟩) ∧
    (∀ row col, (calculate_placement_score g w row col d).val =
      placementScoreSpec g w row col d) ∧
    (generate_candidates g w d).Pairwise
      (fun a b => b.score.val ≤ a.score.val) ∧
    (generate_candidates g w d = [] ↔
      ∀ row col, anchorInRange g w.length row col d →
        can_place_word g w row col d = false) :=
  ⟨generate_candidatesP_eq g w d hwf hw, rfl,
    fun cand => candEnum_mem_iff g w d cand,
    fun row col => placement_score_val g w row col d,
    List.Pairwise.sublist (List.take_sublist _ _)
      (stableSortByGt_sorted candGt (fun c => c.score.val) candGt_iff _),
    generate_candidates_eq_nil_iff g w d⟩

/-- C4 witness: on a concrete well-formed grid and non-empty word, the
panic-modelling enumeration succeeds and agrees with the total one. -/
theorem C4_witness :
    generate_candidatesP (Grid.new 3 3) ['A'] Direction.horizontal =
      some (generate_candidates (Grid.new 3 3) ['A'] Direction.horizontal) :=
  (C4_amended (Grid.new 3 3) ['A'] Direction.horizontal (by decide)
    (by decide)).1


theorem get_used_dimensions_pos (g : Grid) :
    1 ≤ (get_used_dimensions g).1 ∧ 1 ≤ (get_used_dimensions g).2 := by
  simp only [get_used_dimensions]
  omega

theorem evaluate_solution_den_pos (g : Grid) (pws : List PlacedWord) :
    0 < (evaluate_solution g pws).den := by
  obtain ⟨h1, h2⟩ := get_used_dimensions_pos g
  have ha : (0 : Int) <
      (((get_used_dimensions g).1 * (get_used_dimensions g).2 : Nat) : Int) := by
    exact_mod_cast Nat.mul_pos h1 h2
  have hs : (0 : Int) < 1 + ((((get_used_dimensions g).1 : Int)
      - ((get_used_dimensions g).2 : Int)).natAbs : Int) := by positivity
  exact mul_pos ha hs

theorem Frac.lt_iff (a b : Frac) (ha : 0 < a.den) (hb : 0 < b.den) :
    Frac.lt a b = true ↔ a.val < b.val := by
  unfold Frac.lt Frac.val
  rw [decide_eq_true_eq,
    div_lt_div_iff (by exact_mod_cast ha) (by exact_mod_cast hb)]
  constructor
  · intro h; exact_mod_cast h
  · intro h; exact_mod_cast h

theorem evaluate_solution_val (g : Grid) (pws : List PlacedWord) :
    (evaluate_solution g pws).val = evaluate_solutionQ g pws := by
  obtain ⟨h1, h2⟩ := get_used_dimensions_pos g
  simp only [evaluate_solution, evaluate_solutionQ, Frac.val]
  set k := (((get_used_dimensions g).1 : Int)
    - ((get_used_dimensions g).2 : Int)).natAbs with hk
  have ha : (0 : ℚ) < ((get_used_dimensions g).1 : ℚ)
      * ((get_used_dimensions g).2 : ℚ) := by
    have := Nat.mul_pos h1 h2
    exact_mod_cast this
  have hs : (0 : ℚ) < 1 + (k : ℚ) := by positivity
  have ha' := ha.ne'
  have hs' := hs.ne'
  push_cast
  field_simp
  ring

theorem sa_step_cases (i : Nat) (st : SAState)
    (hsc : st.best_score = evaluate_solution st.best.grid st.best.words) :
    ((sa_step i st).best = st.best ∧
      (sa_step i st).best_score = st.best_score ∧
      ((sa_step i st).cur = st.cur ∨
        (evaluate_solution (sa_step i st).cur.grid
            (sa_step i st).cur.words).val ≤ st.best_score.val)) ∨
    ((sa_step i st).best = (sa_step i st).cur ∧
      (sa_step i st).best_score =
        evaluate_solution (sa_step i st).cur.grid (sa_step i st).cur.words ∧
      st.best_score.val < (sa_step i st).best_score.val) := by
  have hden : (0 : Int) < st.best_score.den := by
    rw [hsc]; exact evaluate_solution_den_pos _ _
  simp only [sa_step]
  by_cases hmv : (try_optimize_single_word st.cur st.rand).1.1 = true
  · rw [if_pos hmv]
    by_cases hlt : Frac.lt
        (evaluate_solution st.cur.grid st.cur.words)
        (evaluate_solution (try_optimize_single_word st.cur st.rand).1.2.grid
          (try_optimize_single_word st.cur st.rand).1.2.words) = true
    · rw [if_pos hlt, if_pos rfl]
      by_cases hbest : Frac.lt st.best_score
          (evaluate_solution
            (try_optimize_single_word st.cur st.rand).1.2.grid
            (try_optimize_single_word st.cur st.rand).1.2.words) = true
      · rw [if_pos hbest]
        refine Or.inr ⟨rfl, rfl, ?_⟩
        exact (Frac.lt_iff _ _ hden (evaluate_solution_den_pos _ _)).1 hbest
      · rw [if_neg hbest]
        refine Or.inl ⟨rfl, rfl, Or.inr ?_⟩
        refine le_of_not_lt fun hc => hbest ?_
        exact (Frac.lt_iff _ _ hden (evaluate_solution_den_pos _ _)).2 hc
    · rw [if_neg hlt]
      by_cases hcoin : (gen_coin
          (try_optimize_single_word st.cur st.rand).2).1 = true
      · rw [if_pos hcoin]
        by_cases hbest : Frac.lt st.best_score
            (evaluate_solution
              (try_optimize_single_word st.cur st.rand).1.2.grid
              (try_optimize_single_word st.cur st.rand).1.2.words) = true
        · rw [if_pos hbest]
          refine Or.inr ⟨rfl, rfl, ?_⟩
          exact (Frac.lt_iff _ _ hden (evaluate_solution_den_pos _ _)).1 hbest
        · rw [if_neg hbest]
          refine Or.inl ⟨rfl, rfl, Or.inr ?_⟩
          refine le_of_not_lt fun hc => hbest ?_
          exact (Frac.lt_iff _ _ hden (evaluate_solution_den_pos _ _)).2 hc
      · rw [if_neg hcoin]
        exact Or.inl ⟨rfl, rfl, Or.inl rfl⟩
  · rw [if_neg hmv]
    exact Or.inl ⟨rfl, rfl, Or.inl rfl⟩

theorem sa_states_invariant (s : Sol) (r : R) (n : Nat) :
    (sa_states (saInit s r) n).best_score =
      evaluate_solution (sa_states (saInit s r) n).best.grid
        (sa_states (saInit s r) n).best.words ∧
    (∃ i, i ≤ n ∧ (sa_states (saInit s r) n).best =
      (sa_states (saInit s r) i).cur) ∧
    (evaluate_solution (sa_states (saInit s r) n).cur.grid
        (sa_states (saInit s r) n).cur.words).val ≤
      (sa_states (saInit s r) n).best_score.val ∧
    ∀ m, m ≤ n → (sa_states (saInit s r) m).best_score.val ≤
      (sa_states (saInit s r) n).best_score.val := by
  induction n with
  | zero =>
    refine ⟨rfl, ⟨0, le_refl 0, rfl⟩, le_refl _, ?_⟩
    intro m hm
    have hm0 : m = 0 := Nat.le_zero.1 hm
    rw [hm0]
  | succ n ih =>
    obtain ⟨hsc, ⟨j, hj, hjv⟩, hcur, hmono⟩ := ih
    have hstep := sa_step_cases n (sa_states (saInit s r) n) hsc
    have hrw : sa_states (saInit s r) (n + 1) =
      sa_step n (sa_states (saInit s r) n) := rfl
    rw [hrw]
    rcases hstep with ⟨hb, hbs, hc⟩ | ⟨hb, hbs, hlt⟩
    · refine ⟨?_, ⟨j, hj.trans (Nat.le_succ n), ?_⟩, ?_, ?_⟩
      · rw [hbs, hb]; exact hsc
      · rw [hb]; exact hjv
      · rcases hc with hcc | hle
        · rw [hcc, hbs]; exact hcur
        · rw [hbs]; exact hle
      · intro m hm
        by_cases hm' : m ≤ n
        · rw [hbs]; exact hmono m hm'
        · have hm2 : m = n + 1 := by omega
          rw [hm2]
          exact le_refl _
    · refine ⟨?_, ⟨n + 1, le_refl _, ?_⟩, ?_, ?_⟩
      · rw [hb]; exact hbs
      · exact hb
      · rw [hbs]
      · intro m hm
        by_cases hm' : m ≤ n
        · exact (hmono m hm').trans hlt.le
        · have hm2 : m = n + 1 := by omega
          rw [hm2]
          exact le_refl _

/-- C8: along the annealing run, the tracked best score is non-decreasing
across iterations, the returned solution is the `best` field of the final
state, `best` is one of the visited (accepted) states with `best_score`
exactly its evaluation, every visited state scores at most `best_score`,
and hence the returned solution's `evaluate_solution` score is at least
the initial solution's. -/
theorem C8_annealing_best (s : Sol) (r : R) (n : Nat) :
    (∀ m k, m ≤ k → k ≤ n → (sa_states (saInit s r) m).best_score.val ≤
      (sa_states (saInit s r) k).best_score.val) ∧
    (generate_simulated_annealing s n r).1 =
      (sa_states (saInit s r) n).best ∧
    (∃ i, i ≤ n ∧ (sa_states (saInit s r) n).best =
      (sa_states (saInit s r) i).cur) ∧
    (sa_states (saInit s r) n).best_score =
      evaluate_solution (sa_states (saInit s r) n).best.grid
        (sa_states (saInit s r) n).best.words ∧
    (∀ i, i ≤ n → (evaluate_solution (sa_states (saInit s r) i).cur.grid
        (sa_states (saInit s r) i).cur.words).val ≤
      (sa_states (saInit s r) n).best_score.val) ∧
    evaluate_solutionQ s.grid s.words ≤
      evaluate_solutionQ (generate_simulated_annealing s n r).1.grid
        (generate_simulated_annealing s n r).1.words := by
  have hinv := sa_states_invariant s r n
  obtain ⟨hsc, hvis, hcur, hmono⟩ := hinv
  refine ⟨?_, rfl, hvis, hsc, ?_, ?_⟩
  · intro m k hmk _
    exact (sa_states_invariant s r k).2.2.2 m hmk
  · intro i hi
    exact ((sa_states_invariant s r i).2.2.1).trans (hmono i hi)
  · have h1 : (evaluate_solution s.grid s.words).val ≤
        (sa_states (saInit s r) n).best_score.val := hmono 0 (Nat.zero_le n)
    have h2 : (sa_states (saInit s r) n).best_score.val =
        (evaluate_solution (sa_states (saInit s r) n).best.grid
          (sa_states (saInit s r) n).best.words).val := by rw [hsc]
    rw [← evaluate_solution_val, ← evaluate_solution_val]
    calc (evaluate_solution s.grid s.words).val ≤
        (sa_states (saInit s r) n).best_score.val := h1
      _ = _ := h2


theorem foldr_max_le_mem (l : List Nat) (x : Nat) (hx : x ∈ l) :
    x ≤ l.foldr max 0 := by
  induction l with
  | nil => cases hx
  | cons y ys ih =>
    rcases List.mem_cons.1 hx with h | h
    · rw [h]; exact le_max_left _ _
    · exact le_trans (ih h) (le_max_right _ _)

theorem estimate_grid_size_bounds (gen : Gen) :
    10 ≤ (estimate_grid_size gen).1 ∧ 10 ≤ (estimate_grid_size gen).2 ∧
    (∀ w ∈ gen.horizontal_words, w.length ≤ (estimate_grid_size gen).1) ∧
    (∀ w ∈ gen.vertical_words, w.length ≤ (estimate_grid_size gen).2) := by
  simp only [estimate_grid_size]
  refine ⟨?_, ?_, ?_, ?_⟩
  · exact le_trans (le_max_right _ 10) (le_max_right _ _)
  · exact le_trans (le_max_right _ 10) (le_max_right _ _)
  · intro w hw
    refine le_trans ?_ (le_max_right _ _)
    refine le_trans ?_ (le_max_left _ 10)
    refine le_trans ?_ (le_max_left _ _)
    exact foldr_max_le_mem _ _ (List.mem_map_of_mem List.length hw)
  · intro w hw
    refine le_trans ?_ (le_max_right _ _)
    refine le_trans ?_ (le_max_left _ 10)
    refine le_trans ?_ (le_max_left _ _)
    exact foldr_max_le_mem _ _ (List.mem_map_of_mem List.length hw)

theorem le_twelve_tenths (x : Nat) : x ≤ 12 * x / 10 := by
  rw [Nat.le_div_iff_mul_le (by norm_num)]
  omega

/-- C2 counterexample: an input with a zero-length word.  The size
estimate is 10×10 and the first schedule stage works on a 6×6 grid, where
the candidate enumeration performed for the zero-length word panics on
the underflowing loop bound `word.len() - 1` (`none` in the panic model)
instead of completing. -/
theorem C2_counterexample :
    estimate_grid_size (mkGen ⟨[[]], []⟩) = (10, 10) ∧
    generate_candidatesP (Grid.new 6 6) [] Direction.horizontal = none :=
  ⟨by decide, rfl⟩

/-- C2 (amended): for non-empty words the panic-prone operations are
safe — candidate enumeration completes on every well-formed grid,
`can_place_word` (the check guarding every placement) completes at every
in-grid anchor, and the standard stage of the schedule (grid
`⌊1.2·e⌋ × ⌊1.2·e⌋` for the size estimate `e`) draws its random anchors
from non-empty ranges for every input word.  Zero-length words panic
instead (see the counterexample). -/
theorem C2_amended (gen : Gen) :
    (∀ g (w : List Char) d, g.wf → w ≠ [] →
      (generate_candidatesP g w d).isSome = true) ∧
    (∀ g (w : List Char) row col d, g.wf → row < g.height → col < g.width →
      (can_place_wordP g w row col d).isSome = true) ∧
    (∀ w ∈ gen.horizontal_words, w ≠ [] →
      gen_range_emptyP (w.length - 1)
        (12 * (estimate_grid_size gen).1 / 10) = false) ∧
    (∀ w ∈ gen.vertical_words, w ≠ [] →
      gen_range_emptyP (w.length - 1)
        (12 * (estimate_grid_size gen).2 / 10) = false) ∧
    gen_range_emptyP 0 (12 * (estimate_grid_size gen).1 / 10) = false ∧
    gen_range_emptyP 0 (12 * (estimate_grid_size gen).2 / 10) = false := by
  obtain ⟨h10w, h10h, hhw, hvw⟩ := estimate_grid_size_bounds gen
  have hw12 := le_twelve_tenths (estimate_grid_size gen).1
  have hh12 := le_twelve_tenths (estimate_grid_size gen).2
  refine ⟨?_, ?_, ?_, ?_, ?_, ?_⟩
  · intro g w d hwf hw
    rw [generate_candidatesP_eq g w d hwf hw]
    rfl
  · intro g w row col d hwf hr hc
    rw [can_place_wordP_eq g w row col d hwf hr hc]
    rfl
  · intro w hw hne
    have h1 := hhw w hw
    have h2 : 1 ≤ w.length := List.length_pos.2 hne
    simp only [gen_range_emptyP, decide_eq_false_iff_not, not_le]
    omega
  · intro w hw hne
    have h1 := hvw w hw
    have h2 : 1 ≤ w.length := List.length_pos.2 hne
    simp only [gen_range_emptyP, decide_eq_false_iff_not, not_le]
    omega
  · simp only [gen_range_emptyP, decide_eq_false_iff_not, not_le]
    omega
  · simp only [gen_range_emptyP, decide_eq_false_iff_not, not_le]
    omega


/-! Claim C1: word-multiset preservation through the pipeline, and the
grid/anchor mismatch introduced by the ignored `place_word` result. -/

theorem set_getElem_self (l : List α) (i : Nat) (hi : i < l.length) :
    l.set i l[i] = l := by
  induction l generalizing i with
  | nil => cases hi
  | cons x xs ih =>
    cases i with
    | zero => rfl
    | succ n =>
      simp only [List.set, List.getElem_cons_succ]
      rw [ih n (by simpa using hi)]

theorem set_perm_cons_eraseIdx (l : List α) (i : Nat) (hi : i < l.length)
    (b : α) : (l.set i b).Perm (b :: l.eraseIdx i) := by
  induction l generalizing i with
  | nil => cases hi
  | cons x xs ih =>
    cases i with
    | zero => exact List.Perm.refl _
    | succ n =>
      simp only [List.set, List.eraseIdx]
      exact ((ih n (by simpa using hi)).cons x).trans (List.Perm.swap _ _ _)

theorem perm_cons_eraseIdx (l : List α) (i : Nat) (hi : i < l.length) :
    l.Perm (l[i] :: l.eraseIdx i) := by
  have h := set_perm_cons_eraseIdx l i hi l[i]
  rwa [set_getElem_self l i hi] at h

theorem swap_set_perm (l : List α) (i j : Nat) (hij : i < j)
    (hj : j < l.length) :
    ((l.set i l[j]).set j l[i]).Perm l := by
  induction l generalizing i j with
  | nil => cases hj
  | cons x xs ih =>
    cases i with
    | zero =>
      cases j with
      | zero => cases hij
      | succ m =>
        have hm : m < xs.length := by simpa using hj
        simp only [List.set, List.getElem_cons_succ, List.getElem_cons_zero]
        refine List.Perm.trans ?_
          ((perm_cons_eraseIdx xs m hm).symm.cons x)
        exact ((set_perm_cons_eraseIdx xs m hm x).cons _).trans
          (List.Perm.swap _ _ _)
    | succ n =>
      cases j with
      | zero => cases hij
      | succ m =>
        have hm : m < xs.length := by simpa using hj
        simp only [List.set, List.getElem_cons_succ]
        exact (ih n m (by omega) hm).cons x

theorem listSwap_perm (l : List α) (i j : Nat) : (listSwap l i j).Perm l := by
  unfold listSwap
  cases hi : l[i]? with
  | none => exact List.Perm.refl l
  | some a =>
    cases hj : l[j]? with
    | none => exact List.Perm.refl l
    | some b =>
      obtain ⟨hil, hia⟩ := List.getElem?_eq_some.1 hi
      obtain ⟨hjl, hjb⟩ := List.getElem?_eq_some.1 hj
      show ((l.set i b).set j a).Perm l
      rcases Nat.lt_trichotomy i j with hij | hij | hij
      · rw [← hia, ← hjb]
        exact swap_set_perm l i j hij hjl
      · subst hij
        rw [List.set_set, ← hia, set_getElem_self l i hil]
      · rw [← hia, ← hjb, List.set_comm _ _ _ (by omega)]
        exact swap_set_perm l j i hij hil

theorem fyAux_perm (n : Nat) (l : List α) (r : R) :
    ((fyAux n l r).1).Perm l := by
  induction n generalizing l r with
  | zero => exact List.Perm.refl l
  | succ m ih =>
    exact (ih _ _).trans (listSwap_perm l (m + 1) _)

theorem shuffle_perm (l : List α) (r : R) : ((shuffle l r).1).Perm l :=
  fyAux_perm (l.length - 1) l r


theorem placeRandLoop_word (g : Grid) (w : List Char) (d : Direction)
    (width height fuel : Nat) (r : R) (g' : Grid) (pw : PlacedWord) (r' : R)
    (h : placeRandLoop g w d width height fuel r = (some (g', pw), r')) :
    pw.word = w := by
  induction fuel generalizing r with
  | zero => cases h
  | succ n ih =>
    unfold placeRandLoop at h
    cases d with
    | horizontal =>
      by_cases hp : (place_word g w (gen_range 0 height r).1
          (gen_range (w.length - 1) width (gen_range 0 height r).2).1
          Direction.horizontal).1 = true
      · rw [if_pos hp] at h
        obtain ⟨h1, -⟩ := Prod.mk.injEq .. ▸ h
        cases h
        rfl
      · rw [if_neg hp] at h
        exact ih _ h
    | vertical =>
      by_cases hp : (place_word g w (gen_range (w.length - 1) height r).1
          (gen_range 0 width (gen_range (w.length - 1) height r).2).1
          Direction.vertical).1 = true
      · rw [if_pos hp] at h
        cases h
        rfl
      · rw [if_neg hp] at h
        exact ih _ h

theorem placeAllRand_words (d : Direction) (width height : Nat)
    (ws : List (List Char)) (g : Grid) (acc : List PlacedWord) (r : R)
    (g' : Grid) (pws : List PlacedWord) (r' : R)
    (h : placeAllRand d width height ws g acc r = (some (g', pws), r')) :
    wordsOf pws = wordsOf acc ++ ws := by
  induction ws generalizing g acc r with
  | nil =>
    cases h
    simp
  | cons w rest ih =>
    unfold placeAllRand at h
    rcases hp : placeRandLoop g w d width height 150 r with ⟨op, rp⟩
    rw [hp] at h
    cases op with
    | none => cases h
    | some gp =>
      have hw := placeRandLoop_word g w d width height 150 r gp.1 gp.2 rp
        (by rw [hp])
      have := ih gp.1 (acc ++ [gp.2]) rp h
      rw [this]
      simp [wordsOf, hw]

theorem withSizeAttempt_words (gen : Gen) (width height : Nat) (r : R)
    (s : Sol) (r' : R) (h : withSizeAttempt gen width height r = (some s, r')) :
    (wordsOf s.words).Perm (gen.horizontal_words ++ gen.vertical_words) := by
  simp only [withSizeAttempt] at h
  rcases h1 : placeAllRand Direction.horizontal width height
      (shuffle gen.horizontal_words r).1 (Grid.new width height) []
      (shuffle gen.vertical_words (shuffle gen.horizontal_words r).2).2
    with ⟨o1, r1⟩
  cases o1 with
  | none =>
    simp only [h1] at h
    exact absurd h (by simp)
  | some p1 =>
    simp only [h1] at h
    rcases h2 : placeAllRand Direction.vertical width height
        (shuffle gen.vertical_words (shuffle gen.horizontal_words r).2).1
        p1.1 p1.2 r1 with ⟨o2, r2⟩
    cases o2 with
    | none =>
      simp only [h2] at h
      exact absurd h (by simp)
    | some p2 =>
      simp only [h2, Prod.mk.injEq, Option.some.injEq] at h
      obtain ⟨hs, hr⟩ := h
      subst hs
      have e1 := placeAllRand_words Direction.horizontal width height _ _ _ _
        p1.1 p1.2 r1 (by rw [h1])
      have e2 := placeAllRand_words Direction.vertical width height _ _ _ _
        p2.1 p2.2 r2 (by rw [h2])
      show (wordsOf p2.2).Perm _
      rw [e2, e1]
      simp only [wordsOf, List.map_nil, List.nil_append]
      exact (shuffle_perm gen.horizontal_words r).append
        (shuffle_perm gen.vertical_words _)

theorem withSizeLoop_words (gen : Gen) (width height : Nat) (n : Nat)
    (best : Option Sol) (bestArea : Nat) (r : R) (s : Sol) (r' : R)
    (hbest : ∀ b, best = some b →
      (wordsOf b.words).Perm (gen.horizontal_words ++ gen.vertical_words))
    (h : withSizeLoop gen width height n best bestArea r = (some s, r')) :
    (wordsOf s.words).Perm (gen.horizontal_words ++ gen.vertical_words) := by
  induction n generalizing best bestArea r with
  | zero =>
    cases h
    exact hbest s rfl
  | succ m ih =>
    unfold withSizeLoop at h
    rcases ha : withSizeAttempt gen width height r with ⟨oa, ra⟩
    cases oa with
    | none =>
      simp only [ha] at h
      exact ih best bestArea ra hbest h
    | some sa =>
      have hw := withSizeAttempt_words gen width height r sa ra (by rw [ha])
      simp only [ha] at h
      split at h
      · exact ih (some sa) _ ra (fun b hb => by cases hb; exact hw) h
      · exact ih best bestArea ra hbest h

theorem generate_with_size_words (gen : Gen) (width height ma : Nat) (r : R)
    (s : Sol) (r' : R)
    (h : generate_with_size gen width height ma r = (some s, r')) :
    (wordsOf s.words).Perm (gen.horizontal_words ++ gen.vertical_words) :=
  withSizeLoop_words gen width height ma none _ r s r'
    (fun b hb => by cases hb) h


theorem map_getD_range (l : List (List Char)) :
    (List.range l.length).map (fun i => l.getD i []) = l := by
  apply List.ext_getElem
  · simp
  · intro i h1 h2
    simp only [List.getElem_map, List.getElem_range]
    exact List.getD_eq_getElem l [] h2

theorem tryCandLoop_word (g : Grid) (w : List Char)
    (cands : List PlacementCandidate) (i fuel : Nat) (r : R) (g' : Grid)
    (pw : PlacedWord) (r' : R)
    (h : tryCandLoop g w cands i fuel r = (some (g', pw), r')) :
    pw.word = w := by
  induction fuel generalizing i r with
  | zero => cases h
  | succ m ih =>
    simp only [tryCandLoop] at h
    rcases hc : cands[(if i < 3 then (i, r) else gen_range 0 cands.length r).1]?
      with _ | c
    · simp only [hc] at h
      exact ih _ _ h
    · simp only [hc] at h
      by_cases hp : (place_word g w c.row c.col c.direction).1 = true
      · rw [if_pos hp] at h
        cases h
        rfl
      · rw [if_neg hp] at h
        exact ih _ _ h

theorem processQueue_words (gen : Gen) (q : List (Nat × Direction))
    (g : Grid) (acc : List PlacedWord) (r : R) (g' : Grid)
    (pws : List PlacedWord) (r' : R)
    (h : processQueue gen q g acc r = (some (g', pws), r')) :
    wordsOf pws = wordsOf acc ++ qmap gen q := by
  induction q generalizing g acc r with
  | nil =>
    cases h
    simp [qmap]
  | cons p rest ih =>
    rcases p with ⟨idx, d⟩
    cases d with
    | horizontal =>
      simp only [processQueue] at h
      rcases hc : tryCandLoop g (gen.horizontal_words.getD idx [])
          (generate_candidates g (gen.horizontal_words.getD idx [])
            Direction.horizontal) 0
          (max (min (generate_candidates g (gen.horizontal_words.getD idx [])
            Direction.horizontal).length 10) 1) r
        with ⟨oc, rc⟩
      cases oc with
      | none =>
        simp only [hc] at h
        exact absurd h (by simp)
      | some gp =>
        simp only [hc] at h
        have hw := tryCandLoop_word _ _ _ _ _ _ gp.1 gp.2 rc (by rw [hc])
        have hrec := ih gp.1 (acc ++ [gp.2]) rc h
        rw [hrec]
        simp [wordsOf, qmap, hw]
    | vertical =>
      simp only [processQueue] at h
      rcases hc : tryCandLoop g (gen.vertical_words.getD idx [])
          (generate_candidates g (gen.vertical_words.getD idx [])
            Direction.vertical) 0
          (max (min (generate_candidates g (gen.vertical_words.getD idx [])
            Direction.vertical).length 10) 1) r
        with ⟨oc, rc⟩
      cases oc with
      | none =>
        simp only [hc] at h
        exact absurd h (by simp)
      | some gp =>
        simp only [hc] at h
        have hw := tryCandLoop_word _ _ _ _ _ _ gp.1 gp.2 rc (by rw [hc])
        have hrec := ih gp.1 (acc ++ [gp.2]) rc h
        rw [hrec]
        simp [wordsOf, qmap, hw]


theorem interleaveQueue_perm (hs vs : List Nat) :
    (interleaveQueue hs vs).Perm
      (hs.map (fun h => (h, Direction.horizontal)) ++
        vs.map (fun v => (v, Direction.vertical))) := by
  induction hs generalizing vs with
  | nil => simp [interleaveQueue]
  | cons x xs ih =>
    cases vs with
    | nil =>
      simp only [interleaveQueue, List.map_cons, List.map_nil]
      exact ((ih []).cons _).trans (by simp)
    | cons y ys =>
      simp only [interleaveQueue, List.map_cons]
      refine (((ih ys).cons _).cons _).trans ?_
      simp only [List.cons_append]
      exact (List.perm_middle.symm.cons _)

theorem qmap_append (gen : Gen) (a b : List (Nat × Direction)) :
    qmap gen (a ++ b) = qmap gen a ++ qmap gen b := by
  simp [qmap]

theorem qmap_mapH (gen : Gen) (hs : List Nat) :
    qmap gen (hs.map fun h => (h, Direction.horizontal)) =
      hs.map fun i => gen.horizontal_words.getD i [] := by
  simp [qmap, List.map_map]

theorem qmap_mapV (gen : Gen) (vs : List Nat) :
    qmap gen (vs.map fun v => (v, Direction.vertical)) =
      vs.map fun i => gen.vertical_words.getD i [] := by
  simp [qmap, List.map_map]

theorem optimizedAttempt_words (gen : Gen) (width height : Nat) (r : R)
    (s : Sol) (r' : R)
    (h : optimizedAttempt gen width height r = (some s, r')) :
    (wordsOf s.words).Perm (gen.horizontal_words ++ gen.vertical_words) := by
  simp only [optimizedAttempt] at h
  rcases hq : processQueue gen
      (interleaveQueue (shuffle (List.range gen.horizontal_words.length) r).1
        (shuffle (List.range gen.vertical_words.length)
          (shuffle (List.range gen.horizontal_words.length) r).2).1)
      (Grid.new width height) []
      (shuffle (List.range gen.vertical_words.length)
        (shuffle (List.range gen.horizontal_words.length) r).2).2
    with ⟨oq, rq⟩
  cases oq with
  | none =>
    simp only [hq] at h
    exact absurd h (by simp)
  | some gp =>
    simp only [hq, Prod.mk.injEq, Option.some.injEq] at h
    obtain ⟨hs, hr⟩ := h
    subst hs
    have he := processQueue_words gen _ _ _ _ gp.1 gp.2 rq (by rw [hq])
    show (wordsOf gp.2).Perm _
    rw [he]
    simp only [wordsOf, List.map_nil, List.nil_append]
    have hperm := interleaveQueue_perm
      (shuffle (List.range gen.horizontal_words.length) r).1
      (shuffle (List.range gen.vertical_words.length)
        (shuffle (List.range gen.horizontal_words.length) r).2).1
    have h1 := List.Perm.map (fun p : Nat × Direction =>
      match p.2 with
      | Direction.horizontal => gen.horizontal_words.getD p.1 []
      | Direction.vertical => gen.vertical_words.getD p.1 []) hperm
    refine List.Perm.trans h1 ?_
    rw [show (List.map (fun p : Nat × Direction =>
        match p.2 with
        | Direction.horizontal => gen.horizontal_words.getD p.1 []
        | Direction.vertical => gen.vertical_words.getD p.1 [])
        ((shuffle (List.range gen.horizontal_words.length) r).1.map
            (fun h => (h, Direction.horizontal)) ++
          (shuffle (List.range gen.vertical_words.length)
            (shuffle (List.range gen.horizontal_words.length) r).2).1.map
            (fun v => (v, Direction.vertical)))) =
      qmap gen ((shuffle (List.range gen.horizontal_words.length) r).1.map
            (fun h => (h, Direction.horizontal)) ++
          (shuffle (List.range gen.vertical_words.length)
            (shuffle (List.range gen.horizontal_words.length) r).2).1.map
            (fun v => (v, Direction.vertical))) from rfl,
      qmap_append, qmap_mapH, qmap_mapV]
    have h2 : ((shuffle (List.range gen.horizontal_words.length) r).1.map
        fun i => gen.horizontal_words.getD i []).Perm gen.horizontal_words := by
      have hp := (shuffle_perm (List.range gen.horizontal_words.length) r).map
        (fun i => gen.horizontal_words.getD i [])
      rwa [map_getD_range] at hp
    have h3 : ((shuffle (List.range gen.vertical_words.length)
        (shuffle (List.range gen.horizontal_words.length) r).2).1.map
        fun i => gen.vertical_words.getD i []).Perm gen.vertical_words := by
      have hp := (shuffle_perm (List.range gen.vertical_words.length)
        (shuffle (List.range gen.horizontal_words.length) r).2).map
        (fun i => gen.vertical_words.getD i [])
      rwa [map_getD_range] at hp
    exact h2.append h3


theorem optimizedLoop_words (gen : Gen) (width height : Nat) (n : Nat)
    (best : Option (Sol × Frac)) (r : R) (s : Sol) (r' : R)
    (hbest : ∀ b, best = some b →
      (wordsOf b.1.words).Perm (gen.horizontal_words ++ gen.vertical_words))
    (h : optimizedLoop gen width height n best r = (some s, r')) :
    (wordsOf s.words).Perm (gen.horizontal_words ++ gen.vertical_words) := by
  induction n generalizing best r with
  | zero =>
    cases best with
    | none => cases h
    | some b =>
      cases h
      exact hbest b rfl
  | succ m ih =>
    unfold optimizedLoop at h
    rcases ha : optimizedAttempt gen width height r with ⟨oa, ra⟩
    cases oa with
    | none =>
      simp only [ha] at h
      exact ih best ra hbest h
    | some sa =>
      have hw := optimizedAttempt_words gen width height r sa ra (by rw [ha])
      cases best with
      | none =>
        simp only [ha] at h
        exact ih _ ra (fun b hb => by cases hb; exact hw) h
      | some b =>
        simp only [ha] at h
        split at h
        · exact ih _ ra (fun b2 hb => by cases hb; exact hw) h
        · exact ih (some b) ra hbest h

theorem generate_optimized_words (gen : Gen) (width height ma : Nat) (r : R)
    (s : Sol) (r' : R)
    (h : generate_optimized gen width height ma r = (some s, r')) :
    (wordsOf s.words).Perm (gen.horizontal_words ++ gen.vertical_words) :=
  optimizedLoop_words gen width height ma none r s r'
    (fun b hb => by cases hb) h


theorem perm_step_two {α : Type*} (A U1 U2 U1' U2' : List α) (hw vw : α)
    (h1 : U1.Perm (hw :: U1')) (h2 : U2.Perm (vw :: U2')) :
    (A ++ [hw, vw] ++ U1' ++ U2').Perm (A ++ U1 ++ U2) := by
  rw [← Multiset.coe_eq_coe] at h1 h2 ⊢
  simp only [← Multiset.coe_add, ← Multiset.cons_coe] at *
  rw [h1, h2]
  simp only [← Multiset.singleton_add]
  abel

theorem unusedW_replicate (ws : List (List Char)) :
    unusedW ws (List.replicate ws.length false) = ws := by
  induction ws with
  | nil => rfl
  | cons w rest ih =>
    simp only [List.length_cons, List.replicate_succ, unusedW, if_neg]
    rw [ih]
    simp

theorem unusedW_eq_filter (ws : List (List Char)) (flags : List Bool) :
    unusedW ws flags =
      ((ws.zip flags).filter fun p => !p.2).map Prod.fst := by
  induction ws generalizing flags with
  | nil => rfl
  | cons w rest ih =>
    cases flags with
    | nil => rfl
    | cons f fs =>
      cases f with
      | false => simp [unusedW, List.zip_cons_cons, List.filter_cons, ih fs]
      | true => simp [unusedW, List.zip_cons_cons, List.filter_cons, ih fs]

theorem unusedW_set_true (ws : List (List Char)) (flags : List Bool)
    (i : Nat) (hi : flags.getD i false = false) (hiw : i < ws.length)
    (hif : i < flags.length) :
    (unusedW ws flags).Perm
      ((ws.getD i []) :: unusedW ws (flags.set i true)) := by
  induction ws generalizing flags i with
  | nil => cases hiw
  | cons w rest ih =>
    cases flags with
    | nil => cases hif
    | cons f fs =>
      cases i with
      | zero =>
        cases f with
        | false => simp [unusedW, List.set]
        | true => cases hi
      | succ k =>
        have hk : fs.getD k false = false := by simpa using hi
        have hkw : k < rest.length := by simpa using hiw
        have hkf : k < fs.length := by simpa using hif
        cases f with
        | true =>
          simp only [unusedW, List.set, if_pos, List.getD_cons_succ]
          exact ih fs k hk hkw hkf
        | false =>
          simp only [unusedW, List.set, if_neg, List.getD_cons_succ]
          refine ((ih fs k hk hkw hkf).cons w).trans (List.Perm.swap _ _ _)

theorem firstFitPlace_word (g : Grid) (w : List Char)
    (cs : List PlacementCandidate) (g' : Grid) (pw : PlacedWord)
    (h : firstFitPlace g w cs = some (g', pw)) : pw.word = w := by
  induction cs with
  | nil => cases h
  | cons c rest ih =>
    simp only [firstFitPlace] at h
    by_cases hp : (place_word g w c.row c.col c.direction).1 = true
    · rw [if_pos hp] at h
      cases h
      rfl
    · rw [if_neg hp] at h
      exact ih h

theorem phase2_words (d : Direction) (pairs : List (List Char × Bool))
    (g : Grid) (acc : List PlacedWord) (g' : Grid) (pws : List PlacedWord)
    (h : phase2 d pairs g acc = some (g', pws)) :
    wordsOf pws =
      wordsOf acc ++ ((pairs.filter fun p => !p.2).map Prod.fst) := by
  induction pairs generalizing g acc with
  | nil =>
    cases h
    simp
  | cons p rest ih =>
    rcases p with ⟨w, used⟩
    cases used with
    | true =>
      simp only [phase2, if_pos] at h
      rw [ih g acc h]
      simp [List.filter_cons]
    | false =>
      simp only [phase2, if_neg] at h
      rcases hf : firstFitPlace g w ((generate_candidates g w d).take 5)
        with _ | gp
      · rw [hf] at h
        cases h
      · simp only [hf] at h
        have hw := firstFitPlace_word _ _ _ gp.1 gp.2 (by rw [hf])
        have hrec := ih gp.1 (acc ++ [gp.2]) h
        rw [hrec]
        simp [wordsOf, hw, List.filter_cons]


theorem phase1_words (gen : Gen) (W H : Nat) (its : List Intersection)
    (st : P1State)
    (hH : st.usedH.length = gen.horizontal_words.length)
    (hV : st.usedV.length = gen.vertical_words.length)
    (hits : ∀ q ∈ its, q.h_word_idx < gen.horizontal_words.length ∧
      q.v_word_idx < gen.vertical_words.length) :
    (wordsOf (phase1 gen W H its st).pws ++
      unusedW gen.horizontal_words (phase1 gen W H its st).usedH ++
      unusedW gen.vertical_words (phase1 gen W H its st).usedV).Perm
      (wordsOf st.pws ++ unusedW gen.horizontal_words st.usedH ++
        unusedW gen.vertical_words st.usedV) ∧
    (phase1 gen W H its st).usedH.length = gen.horizontal_words.length ∧
    (phase1 gen W H its st).usedV.length = gen.vertical_words.length := by
  induction its generalizing st with
  | nil => exact ⟨List.Perm.refl _, hH, hV⟩
  | cons it rest ih =>
    have hrest : ∀ q ∈ rest, q.h_word_idx < gen.horizontal_words.length ∧
        q.v_word_idx < gen.vertical_words.length :=
      fun q hq => hits q (List.mem_cons_of_mem it hq)
    obtain ⟨hih, hiv⟩ := hits it (List.mem_cons_self it rest)
    by_cases hused : (st.usedH.getD it.h_word_idx false ||
        st.usedV.getD it.v_word_idx false) = true
    · simp only [phase1, if_pos hused]
      exact ih st hH hV hrest
    · have hused2 : st.usedH.getD it.h_word_idx false = false ∧
          st.usedV.getD it.v_word_idx false = false := by
        cases hh : st.usedH.getD it.h_word_idx false with
        | true => exact absurd (by rw [hh]; exact Bool.true_or _) hused
        | false =>
          cases hv : st.usedV.getD it.v_word_idx false with
          | true => exact absurd (by rw [hh, hv]; rfl) hused
          | false => exact ⟨rfl, rfl⟩
      have hlenH : (st.usedH.set it.h_word_idx true).length =
          gen.horizontal_words.length := by
        rw [List.length_set]; exact hH
      have hlenV : (st.usedV.set it.v_word_idx true).length =
          gen.vertical_words.length := by
        rw [List.length_set]; exact hV
      have hstep := perm_step_two (wordsOf st.pws)
        (unusedW gen.horizontal_words st.usedH)
        (unusedW gen.vertical_words st.usedV)
        (unusedW gen.horizontal_words (st.usedH.set it.h_word_idx true))
        (unusedW gen.vertical_words (st.usedV.set it.v_word_idx true))
        (gen.horizontal_words.getD it.h_word_idx [])
        (gen.vertical_words.getD it.v_word_idx [])
        (unusedW_set_true _ _ _ hused2.1 hih (by rw [hH]; exact hih))
        (unusedW_set_true _ _ _ hused2.2 hiv (by rw [hV]; exact hiv))
      simp only [phase1, if_neg hused]
      split
      · refine ⟨((ih _ hlenH hlenV hrest).1).trans ?_,
          (ih _ hlenH hlenV hrest).2.1, (ih _ hlenH hlenV hrest).2.2⟩
        simpa [wordsOf] using hstep
      · exact ih st hH hV hrest


theorem find_all_intersections_bounds (gen : Gen) (q : Intersection)
    (hq : q ∈ find_all_intersections gen) :
    q.h_word_idx < gen.horizontal_words.length ∧
      q.v_word_idx < gen.vertical_words.length := by
  have hmem : q ∈ enumIntersections gen :=
    (stableSortByGt_perm (interGt gen) (enumIntersections gen)).mem_iff.1 hq
  obtain ⟨hw, vw, h1, h2, -, -⟩ := (enumIntersections_mem gen q).1 hmem
  exact ⟨(List.get?_eq_some.1 h1).1, (List.get?_eq_some.1 h2).1⟩

theorem intersectionFirstAttempt_words (gen : Gen) (W H : Nat)
    (its : List Intersection) (r : R) (s : Sol) (forced : Nat) (r' : R)
    (hits : ∀ q ∈ its, q.h_word_idx < gen.horizontal_words.length ∧
      q.v_word_idx < gen.vertical_words.length)
    (h : intersectionFirstAttempt gen W H its r = (some (s, forced), r')) :
    (wordsOf s.words).Perm (gen.horizontal_words ++ gen.vertical_words) := by
  simp only [intersectionFirstAttempt] at h
  have hits3 : ∀ q ∈ (shuffle its r).1.take 3,
      q.h_word_idx < gen.horizontal_words.length ∧
        q.v_word_idx < gen.vertical_words.length := by
    intro q hq
    exact hits q ((shuffle_perm its r).mem_iff.1 (List.take_subset _ _ hq))
  have hp1 := phase1_words gen W H ((shuffle its r).1.take 3)
    ⟨Grid.new W H, [], List.replicate gen.horizontal_words.length false,
      List.replicate gen.vertical_words.length false, 0⟩
    (by simp) (by simp) hits3
  obtain ⟨hperm, hlH, hlV⟩ := hp1
  rcases h2 : phase2 Direction.horizontal
      (gen.horizontal_words.zip (phase1 gen W H ((shuffle its r).1.take 3)
        ⟨Grid.new W H, [], List.replicate gen.horizontal_words.length false,
          List.replicate gen.vertical_words.length false, 0⟩).usedH)
      (phase1 gen W H ((shuffle its r).1.take 3)
        ⟨Grid.new W H, [], List.replicate gen.horizontal_words.length false,
          List.replicate gen.vertical_words.length false, 0⟩).grid
      (phase1 gen W H ((shuffle its r).1.take 3)
        ⟨Grid.new W H, [], List.replicate gen.horizontal_words.length false,
          List.replicate gen.vertical_words.length false, 0⟩).pws
    with _ | p1
  · rw [h2] at h
    cases h
  · simp only [h2] at h
    rcases h3 : phase2 Direction.vertical
        (gen.vertical_words.zip (phase1 gen W H ((shuffle its r).1.take 3)
          ⟨Grid.new W H, [], List.replicate gen.horizontal_words.length false,
            List.replicate gen.vertical_words.length false, 0⟩).usedV)
        p1.1 p1.2
      with _ | p2
    · rw [h3] at h
      cases h
    · simp only [h3, Prod.mk.injEq, Option.some.injEq] at h
      obtain ⟨⟨hs, -⟩, -⟩ := h
      have e1 := phase2_words Direction.horizontal _ _ _ p1.1 p1.2 (by rw [h2])
      have e2 := phase2_words Direction.vertical _ _ _ p2.1 p2.2 (by rw [h3])
      rw [← hs]
      show (wordsOf p2.2).Perm _
      rw [e2, e1, ← unusedW_eq_filter, ← unusedW_eq_filter,
        List.append_assoc]
      rw [← List.append_assoc]
      refine hperm.trans ?_
      simp only [wordsOf, List.map_nil, List.nil_append]
      rw [unusedW_replicate, unusedW_replicate]

theorem intersectionFirstLoop_words (gen : Gen) (W H : Nat)
    (its : List Intersection) (n : Nat) (best : Option (Sol × Frac)) (r : R)
    (s : Sol) (r' : R)
    (hits : ∀ q ∈ its, q.h_word_idx < gen.horizontal_words.length ∧
      q.v_word_idx < gen.vertical_words.length)
    (hbest : ∀ b, best = some b →
      (wordsOf b.1.words).Perm (gen.horizontal_words ++ gen.vertical_words))
    (h : intersectionFirstLoop gen W H its n best r = (some s, r')) :
    (wordsOf s.words).Perm (gen.horizontal_words ++ gen.vertical_words) := by
  induction n generalizing best r with
  | zero =>
    cases best with
    | none => cases h
    | some b =>
      cases h
      exact hbest b rfl
  | succ m ih =>
    unfold intersectionFirstLoop at h
    rcases ha : intersectionFirstAttempt gen W H its r with ⟨oa, ra⟩
    cases oa with
    | none =>
      simp only [ha] at h
      exact ih best ra hbest h
    | some sf =>
      have hw := intersectionFirstAttempt_words gen W H its r sf.1 sf.2 ra
        hits (by rw [ha])
      cases best with
      | none =>
        simp only [ha] at h
        exact ih _ ra (fun b hb => by cases hb; exact hw) h
      | some b =>
        simp only [ha] at h
        split at h
        · exact ih _ ra (fun b2 hb => by cases hb; exact hw) h
        · exact ih (some b) ra hbest h

theorem generate_intersection_first_words (gen : Gen) (W H ma : Nat) (r : R)
    (s : Sol) (r' : R)
    (h : generate_intersection_first gen W H ma r = (some s, r')) :
    (wordsOf s.words).Perm (gen.horizontal_words ++ gen.vertical_words) :=
  intersectionFirstLoop_words gen W H (find_all_intersections gen) ma none r
    s r' (fun q hq => find_all_intersections_bounds gen q hq)
    (fun b hb => by cases hb) h


theorem eraseIdx_map_word (l : List PlacedWord) (k : Nat) :
    wordsOf (l.eraseIdx k) = (wordsOf l).eraseIdx k := by
  induction l generalizing k with
  | nil => rfl
  | cons x xs ih =>
    cases k with
    | zero => rfl
    | succ m =>
      have hm := ih m
      simp only [wordsOf] at hm
      simp only [List.eraseIdx, wordsOf, List.map_cons, hm]

theorem try_optimize_words (s : Sol) (r : R)
    (h : (try_optimize_single_word s r).1.1 = true) :
    (wordsOf (try_optimize_single_word s r).1.2.words).Perm
      (wordsOf s.words) := by
  simp only [try_optimize_single_word] at h ⊢
  by_cases he : s.words.isEmpty = true
  · rw [if_pos he] at h
    cases h
  · rw [if_neg he] at h
    rw [if_neg he]
    have hlen : 0 < s.words.length := by
      cases sw : s.words with
      | nil => rw [sw] at he; exact absurd rfl he
      | cons a as => exact Nat.succ_pos _
    have hk : (gen_range 0 s.words.length r).1 < s.words.length := by
      simp only [gen_range, rdraw]
      simpa using Nat.mod_lt (r.headD 0) hlen
    rcases hf : firstFitPlace
        (remove_word_from_grid s.grid
          (s.words.getD (gen_range 0 s.words.length r).1 default))
        (s.words.getD (gen_range 0 s.words.length r).1 default).word
        ((generate_candidates
          (remove_word_from_grid s.grid
            (s.words.getD (gen_range 0 s.words.length r).1 default))
          (s.words.getD (gen_range 0 s.words.length r).1 default).word
          (s.words.getD (gen_range 0 s.words.length r).1 default).direction).take
            5)
      with _ | gp
    · simp only [hf] at h
      split at h <;> cases h
    · simp only [hf] at h ⊢
      have hw := firstFitPlace_word _ _ _ gp.1 gp.2 (by rw [hf])
      show (wordsOf (s.words.eraseIdx (gen_range 0 s.words.length r).1 ++
        [gp.2])).Perm (wordsOf s.words)
      rw [wordsOf, List.map_append, ← wordsOf, ← wordsOf,
        eraseIdx_map_word]
      have hpw : (wordsOf [gp.2]) =
          [(wordsOf s.words).getD (gen_range 0 s.words.length r).1 []] := by
        simp only [wordsOf, List.map_cons, List.map_nil, hw]
        rw [List.getD_eq_getElem s.words default hk,
          List.getD_eq_getElem _ _ (by simpa [wordsOf] using hk)]
        simp [wordsOf]
      rw [hpw, List.getD_eq_getElem _ _ (by simpa [wordsOf] using hk)]
      refine (List.perm_append_singleton _ _).trans ?_
      exact (perm_cons_eraseIdx (wordsOf s.words) _
        (by simpa [wordsOf] using hk)).symm


theorem sa_step_cur_best_words (i : Nat) (st : SAState) :
    ((wordsOf (sa_step i st).cur.words).Perm (wordsOf st.cur.words) ∨
      (sa_step i st).cur = st.cur) ∧
    ((sa_step i st).best = st.best ∨
      (sa_step i st).best = (sa_step i st).cur) := by
  simp only [sa_step]
  by_cases hmv : (try_optimize_single_word st.cur st.rand).1.1 = true
  · rw [if_pos hmv]
    have hw := try_optimize_words st.cur st.rand hmv
    by_cases hlt : Frac.lt
        (evaluate_solution st.cur.grid st.cur.words)
        (evaluate_solution (try_optimize_single_word st.cur st.rand).1.2.grid
          (try_optimize_single_word st.cur st.rand).1.2.words) = true
    · rw [if_pos hlt, if_pos rfl]
      by_cases hbest : Frac.lt st.best_score
          (evaluate_solution
            (try_optimize_single_word st.cur st.rand).1.2.grid
            (try_optimize_single_word st.cur st.rand).1.2.words) = true
      · rw [if_pos hbest]
        exact ⟨Or.inl hw, Or.inr rfl⟩
      · rw [if_neg hbest]
        exact ⟨Or.inl hw, Or.inl rfl⟩
    · rw [if_neg hlt]
      by_cases hcoin : (gen_coin
          (try_optimize_single_word st.cur st.rand).2).1 = true
      · rw [if_pos hcoin]
        by_cases hbest : Frac.lt st.best_score
            (evaluate_solution
              (try_optimize_single_word st.cur st.rand).1.2.grid
              (try_optimize_single_word st.cur st.rand).1.2.words) = true
        · rw [if_pos hbest]
          exact ⟨Or.inl hw, Or.inr rfl⟩
        · rw [if_neg hbest]
          exact ⟨Or.inl hw, Or.inl rfl⟩
      · rw [if_neg hcoin]
        exact ⟨Or.inr rfl, Or.inl rfl⟩
  · rw [if_neg hmv]
    exact ⟨Or.inr rfl, Or.inl rfl⟩

theorem sa_states_words (s : Sol) (r : R) (n : Nat) :
    (wordsOf (sa_states (saInit s r) n).cur.words).Perm (wordsOf s.words) ∧
    (wordsOf (sa_states (saInit s r) n).best.words).Perm (wordsOf s.words) := by
  induction n with
  | zero => exact ⟨List.Perm.refl _, List.Perm.refl _⟩
  | succ m ih =>
    obtain ⟨hc, hb⟩ := ih
    obtain ⟨h1, h2⟩ := sa_step_cur_best_words m (sa_states (saInit s r) m)
    have hrw : sa_states (saInit s r) (m + 1) =
      sa_step m (sa_states (saInit s r) m) := rfl
    rw [hrw]
    have hcur : (wordsOf
        (sa_step m (sa_states (saInit s r) m)).cur.words).Perm
        (wordsOf s.words) := by
      rcases h1 with hp | he
      · exact hp.trans hc
      · rw [he]; exact hc
    refine ⟨hcur, ?_⟩
    rcases h2 with he | he
    · rw [he]; exact hb
    · rw [he]; exact hcur

theorem post_process_words (s : Sol) (r : R) :
    (wordsOf (post_process s r).1.words).Perm (wordsOf s.words) := by
  have hb := (sa_states_words s r 100).2
  simp only [post_process, generate_simulated_annealing]
  show (wordsOf ((sa_states (saInit s r) 100).best.words.map _)).Perm _
  simp only [wordsOf, List.map_map]
  exact hb

theorem runStage_words (gen : Gen) (a : Algo) (W H att : Nat) (r : R)
    (s : Sol) (r' : R) (h : runStage gen a W H att r = (some s, r')) :
    (wordsOf s.words).Perm (gen.horizontal_words ++ gen.vertical_words) := by
  cases a with
  | optimized => exact generate_optimized_words gen W H att r s r' h
  | intersection_first =>
    exact generate_intersection_first_words gen W H att r s r' h
  | standard => exact generate_with_size_words gen W H att r s r' h

theorem generateAux_words (gen : Gen) (iw ih attempts : Nat)
    (stages : List (Algo × Nat × Nat)) (r : R) (s : Sol) (r' : R)
    (h : generateAux gen iw ih attempts stages r = (some s, r')) :
    (wordsOf s.words).Perm (gen.horizontal_words ++ gen.vertical_words) := by
  induction stages generalizing r with
  | nil => cases h
  | cons stage rest ihs =>
    rcases stage with ⟨a, mn, md⟩
    simp only [generateAux] at h
    rcases hr : runStage gen a (mn * iw / md) (mn * ih / md) attempts r
      with ⟨o1, r1⟩
    cases o1 with
    | none =>
      simp only [hr] at h
      exact ihs r1 h
    | some s0 =>
      simp only [hr, Prod.mk.injEq, Option.some.injEq] at h
      obtain ⟨hs, -⟩ := h
      rw [← hs]
      exact (post_process_words s0 r1).trans
        (runStage_words gen a (mn * iw / md) (mn * ih / md) attempts r s0 r1
          (by rw [hr]))

theorem generate_words (gen : Gen) (ma : Nat) (r : R) (s : Sol) (r' : R)
    (h : generate gen ma r = (some s, r')) :
    (wordsOf s.words).Perm (gen.horizontal_words ++ gen.vertical_words) :=
  generateAux_words gen (estimate_grid_size gen).1 (estimate_grid_size gen).2
    (ma / 5) algorithms r s r' h

theorem mkGen_words (wl : WordLists) :
    ((mkGen wl).horizontal_words ++ (mkGen wl).vertical_words).Perm
      (wl.horizontal ++ wl.vertical) :=
  (stableSortByGt_perm lenGt wl.horizontal).append
    (stableSortByGt_perm lenGt wl.vertical)


set_option maxRecDepth 100000 in
/-- C1 counterexample: a concrete run of `generate` (input `input1`,
oracle `draws1`) succeeds, but reading the final grid along one returned
word's anchored span does not reproduce the word: the intersection-first
stage ignores the return value of the second `place_word`
(main.rs line 515), records the vertical word anyway, and annealing,
compaction and trimming keep the stale anchor. -/
theorem C1_counterexample :
    ((generate (mkGen input1) 5 draws1).1.map solSpansOk) = some false := by
  decide

/-- C1 (amended): the completeness half of the claim holds — whenever
`generate` succeeds (on inputs with non-empty words, where the embedding
is faithful because the code cannot panic), the returned placed-word list
carries every input word exactly once, as a multiset.  The grid-match
half of the claim is false (see the counterexample). -/
theorem C1_amended (wl : WordLists) (ma : Nat) (r : R) (s : Sol) (r' : R)
    (hne : ∀ w ∈ wl.horizontal ++ wl.vertical, w ≠ [])
    (h : generate (mkGen wl) ma r = (some s, r')) :
    (wordsOf s.words).Perm (wl.horizontal ++ wl.vertical) :=
  (generate_words (mkGen wl) ma r s r' h).trans (mkGen_words wl)

set_option maxRecDepth 100000 in
/-- C1 witness: on the empty input the orchestrator succeeds and the
returned word list is a permutation of the (empty) input. -/
theorem C1_witness :
    (wordsOf (((generate (mkGen emptyInput) 5 []).1.getD trivSol).words)).Perm
      (emptyInput.horizontal ++ emptyInput.vertical) :=
  C1_amended emptyInput 5 []
    ((generate (mkGen emptyInput) 5 []).1.getD trivSol)
    (generate (mkGen emptyInput) 5 []).2
    (by decide) (by decide)


end Wordsearch
